import Mathlib

/-!
Verification of the ONNX export/merge subsystem of the Vancouver Airbnb
analysis pipeline.

The embedding follows `src/main.py` (`run_analysis`, lines 56-152) and
`src/analysis/models.py` (`ModelTrainer`). ONNX graphs are modelled
structurally: a graph is a list of nodes (operations over named tensors),
declared inputs, declared outputs and named constant initializers.
Python strings are modelled as lists of characters. The external
converter `onnxmltools.convert_lightgbm` is not repository code; it is
modelled as an abstract fallible function producing a graph (its contract,
a single declared input `float_input` and a single declared output, is the
spec's converter contract). The library routines `onnx.compose.add_prefix`
(all rename flags at their defaults, so declared inputs AND outputs are
prefixed) and `onnx.compose.merge_models` with `io_map=[]` (disjoint union
of nodes, inputs, outputs and initializers) are embedded directly.
-/

/-- Tensor and model names: Python strings as lists of characters. -/
abbrev Ident : Type := List Char

/-- The canonical shared input name `'float_input'` from `src/main.py` line 82. -/
def floatInput : Ident := "float_input".data

/-- One ONNX node: an operation with ordered named inputs and outputs.
`op` is the operation's semantics (how output values derive from input
values); the structural transforms in `main.py` never change it. -/
structure Node (V : Type) where
  name : Ident
  inputs : List Ident
  outputs : List Ident
  op : List V → List V

/-- An ONNX graph: nodes in topological order, declared inputs, declared
outputs and named constant initializers. -/
structure Graph (V : Type) where
  node : List (Node V)
  input : List Ident
  output : List Ident
  initializer : List (Ident × V)

/-- The output-rename step, `src/main.py` lines 92-102: take the graph's
output entry 0, rewrite every node *output* entry equal to its old name to
`nm`, and rewrite the declared output's name. Node *input* entries are not
touched by these lines. -/
def renameOutput {V : Type} (g : Graph V) (nm : Ident) : Graph V :=
  match g.output with
  | [] => g
  | o :: rest =>
    { g with
      node := g.node.map (fun nd =>
        { nd with outputs := nd.outputs.map (fun s => if s = o then nm else s) })
      output := nm :: rest }

/-- `onnx.compose.add_prefix` with its default flags (`src/main.py` line 114):
every node name, every edge (node input/output entry), every declared input,
every declared output and every initializer name gets the prefix. -/
def addPrefix {V : Type} (p : Ident) (g : Graph V) : Graph V where
  node := g.node.map (fun nd =>
    { name := p ++ nd.name
      inputs := nd.inputs.map (fun s => p ++ s)
      outputs := nd.outputs.map (fun s => p ++ s)
      op := nd.op })
  input := g.input.map (fun s => p ++ s)
  output := g.output.map (fun s => p ++ s)
  initializer := g.initializer.map (fun iv => (p ++ iv.1, iv.2))

/-- `onnx.compose.merge_models` with `io_map=[]` (`src/main.py` lines 117-121):
no output-to-input connections, so the merged graph is the concatenation of
nodes, declared inputs, declared outputs and initializers. -/
def mergeModels {V : Type} (a b : Graph V) : Graph V where
  node := a.node ++ b.node
  input := a.input ++ b.input
  output := a.output ++ b.output
  initializer := a.initializer ++ b.initializer

/-- The redundant prefixed input name `f"{name}_float_input"`
(`src/main.py` line 127). -/
def redundantInput (nm : Ident) : Ident := nm ++ '_' :: floatInput

/-- The input rewiring, `src/main.py` lines 129-141: every node input entry
equal to the redundant prefixed name is rewritten to `float_input`, and the
redundant name is filtered out of the declared inputs. -/
def rewireInput {V : Type} (nm : Ident) (g : Graph V) : Graph V :=
  { g with
    node := g.node.map (fun nd =>
      { nd with inputs := nd.inputs.map (fun s =>
          if s = redundantInput nm then floatInput else s) })
    input := g.input.filter (fun s => decide (s ≠ redundantInput nm)) }

/-- One iteration of the merge accumulation (`src/main.py` lines 104-141):
the first converted model becomes the accumulator; each later one is
prefixed with `f"{name}_"`, disjointly merged, and has its input rewired. -/
def mergeStep {V : Type} (acc : Option (Graph V)) (nm : Ident) (g : Graph V) :
    Graph V :=
  match acc with
  | none => g
  | some a => rewireInput nm (mergeModels a (addPrefix (nm ++ ['_']) g))

/-- The body of the per-model loop (`src/main.py` lines 76-145). `convert`
abstracts `onnxmltools.convert_lightgbm` for the model registered under the
given name; `none` models the conversion raising an exception, which the
`try`/`except` catches: the model is skipped and the failure is recorded
(the printed message names the model). On success the output is renamed to
the model name and the graph is merged into the accumulator. -/
def exportStep {V : Type} (convert : Ident → Option (Graph V))
    (st : Option (Graph V) × List Ident) (nm : Ident) :
    Option (Graph V) × List Ident :=
  match convert nm with
  | none => (st.1, st.2 ++ [nm])
  | some g => (some (mergeStep st.1 nm (renameOutput g nm)), st.2)

/-- The whole per-group export loop: fold `exportStep` over the group's
model names (already sorted), starting from `combined_model = None` and no
reported failures. -/
def exportRun {V : Type} (convert : Ident → Option (Graph V))
    (names : List Ident) : Option (Graph V) × List Ident :=
  names.foldl (exportStep convert) (none, [])

/-- The writer, `src/main.py` lines 147-150: `if combined_model:
save_model(...)`. The artifact is written exactly when the accumulator is
non-`None`, and its content is the accumulator graph unchanged — the code
performs no structural validation before `save_model`. -/
def savedArtifact {V : Type} (acc : Option (Graph V)) : Option (Graph V) := acc

/-- One registry name sorted into the group accumulator (`src/main.py`
lines 58-62): names starting with `'Price'` go to the Price group,
otherwise names starting with `'Revenue'` go to the Revenue group, all
others to neither. -/
def groupStep (st : List Ident × List Ident) (nm : Ident) :
    List Ident × List Ident :=
  if ("Price".data).isPrefixOf nm then (st.1 ++ [nm], st.2)
  else if ("Revenue".data).isPrefixOf nm then (st.1, st.2 ++ [nm])
  else st

/-- Grouping of all registry names by target (`src/main.py` lines 56-62). -/
def modelGroups (names : List Ident) : List Ident × List Ident :=
  names.foldl groupStep ([], [])

/-- A minimal stand-in for a LightGBM-converted graph: one ensemble node
reading `float_input` and producing the converter's generic output name
`'variable'`. Used as a concrete conversion result in closed theorems. -/
def sampleConverted : Graph Int where
  node := [{ name := "TreeEnsembleRegressor".data
             inputs := [floatInput]
             outputs := ["variable".data]
             op := fun l => l }]
  input := [floatInput]
  output := ["variable".data]
  initializer := []

/-- A Price group of two models, both converting successfully. -/
def priceGroupTwo : List Ident := ["Price_Point".data, "Price_Lower_q5".data]

/-- C2: refuted on the code. Exporting the group `[Price_Point,
Price_Lower_q5]` (both converting to the standard single-output graph)
produces a merged graph whose second declared output is named
`Price_Lower_q5_Price_Lower_q5`, not the registry name `Price_Lower_q5`:
`add_prefix` at its defaults renames declared outputs too, clobbering the
earlier rename for every model merged after the first. -/
theorem second_output_name_is_doubled :
    ((exportRun (fun _ => some sampleConverted) priceGroupTwo).1).map
        (fun g => g.output)
      = some ["Price_Point".data, "Price_Lower_q5_Price_Lower_q5".data]
    ∧ "Price_Lower_q5_Price_Lower_q5".data ≠ "Price_Lower_q5".data := by
  constructor
  · rfl
  · decide

/-- The redundant prefixed input name is never the canonical input name:
it is strictly longer. -/
theorem redundant_ne_floatInput (nm : Ident) : redundantInput nm ≠ floatInput := by
  intro h
  have hlen := congrArg List.length h
  simp [redundantInput] at hlen
  omega

/-- C3: in each merge step onto an accumulator with the single declared
input `float_input`, adding a converted graph (single declared input
`float_input`): after prefixing, the incoming graph's declared input is
`<name>_float_input`; every node input entry of the combined graph equal to
that redundant name is rewritten to `float_input` (and no other entry is
changed); the redundant name survives in no node input; and the declared
inputs reduce to exactly `[float_input]`. -/
theorem merge_step_rewires_input {V : Type} (a b : Graph V) (nm : Ident)
    (ha : a.input = [floatInput]) (hb : b.input = [floatInput]) :
    (addPrefix (nm ++ ['_']) b).input = [redundantInput nm] ∧
    (mergeStep (some a) nm b).node.map (fun nd => nd.inputs)
      = (mergeModels a (addPrefix (nm ++ ['_']) b)).node.map (fun nd =>
          nd.inputs.map (fun s => if s = redundantInput nm then floatInput else s)) ∧
    (∀ nd ∈ (mergeStep (some a) nm b).node, redundantInput nm ∉ nd.inputs) ∧
    (mergeStep (some a) nm b).input = [floatInput] := by
  have h1 : (addPrefix (nm ++ ['_']) b).input = [redundantInput nm] := by
    simp [addPrefix, hb, redundantInput]
  refine ⟨h1, ?_, ?_, ?_⟩
  · simp [mergeStep, rewireInput, List.map_map]
  · intro nd hnd
    simp only [mergeStep, rewireInput, List.mem_map] at hnd
    obtain ⟨nd₀, _, hnd₀⟩ := hnd
    subst hnd₀
    intro hmem
    simp only [List.mem_map] at hmem
    obtain ⟨s, _, hs⟩ := hmem
    by_cases hcase : s = redundantInput nm
    · rw [if_pos hcase] at hs
      exact redundant_ne_floatInput nm hs.symm
    · rw [if_neg hcase] at hs
      exact hcase hs
  · simp [mergeStep, rewireInput, mergeModels, ha, h1, List.filter_cons,
      redundant_ne_floatInput nm, (redundant_ne_floatInput nm).symm]

/-- Concrete check of the C3 merge-step theorem on two standard converted
graphs. -/
theorem merge_step_rewires_input_check :
    (addPrefix ("Price_Lower_q5".data ++ ['_']) sampleConverted).input
        = [redundantInput ("Price_Lower_q5".data)]
    ∧ (mergeStep (some sampleConverted) ("Price_Lower_q5".data)
        sampleConverted).input = [floatInput] :=
  have h := merge_step_rewires_input sampleConverted sampleConverted
    ("Price_Lower_q5".data) rfl rfl
  ⟨h.1, h.2.2.2⟩

/-- A converted graph in which a downstream node consumes the declared
output name `'variable'` before it is returned. -/
def consumerGraph : Graph Int where
  node := [{ name := "producer".data
             inputs := [floatInput]
             outputs := ["variable".data]
             op := fun l => l },
           { name := "consumer".data
             inputs := ["variable".data]
             outputs := ["w".data]
             op := fun l => l }]
  input := [floatInput]
  output := ["variable".data]
  initializer := []

/-- C7 counterexample: the rename step does NOT rewrite node input entries.
On a single-output graph whose output `'variable'` is also consumed by a
downstream node, renaming to `Price_Point` leaves that node's input entry
equal to the old name `'variable'` (the claim says it becomes
`Price_Point`). -/
theorem rename_skips_downstream_inputs :
    ((renameOutput consumerGraph ("Price_Point".data)).node.map
        (fun nd => nd.inputs))
      = [[floatInput], ["variable".data]]
    ∧ "variable".data ≠ "Price_Point".data := by
  exact ⟨rfl, by decide⟩

/-- C7 amended: on a single-output converted graph with output `o`, the
rename to `nm` rewrites the declared output tensor's name and every node
output entry equal to `o`; node input entries (downstream references), node
names, the declared input and the initializers are all left unchanged. -/
theorem rename_output_effect {V : Type} (g : Graph V) (o nm : Ident)
    (hout : g.output = [o]) :
    (renameOutput g nm).output = [nm] ∧
    (renameOutput g nm).node.map (fun nd => nd.outputs)
      = g.node.map (fun nd => nd.outputs.map (fun s => if s = o then nm else s)) ∧
    (renameOutput g nm).node.map (fun nd => nd.inputs)
      = g.node.map (fun nd => nd.inputs) ∧
    (renameOutput g nm).node.map (fun nd => nd.name)
      = g.node.map (fun nd => nd.name) ∧
    (renameOutput g nm).input = g.input ∧
    (renameOutput g nm).initializer = g.initializer := by
  unfold renameOutput
  rw [hout]
  refine ⟨rfl, ?_, ?_, ?_, rfl, rfl⟩ <;> simp [List.map_map]

/-- Concrete check of the amended C7 rename theorem on the standard
converted graph. -/
theorem rename_output_effect_check :
    (renameOutput sampleConverted ("Price_Point".data)).output
      = ["Price_Point".data] :=
  (rename_output_effect sampleConverted ("variable".data)
    ("Price_Point".data) rfl).1

/-- All tensor names a graph declares or produces: declared inputs,
initializer names and node outputs (the producers the spec's §3 invariant
speaks about). -/
def tensorNames {V : Type} (g : Graph V) : List Ident :=
  g.input ++ g.initializer.map Prod.fst
    ++ g.node.foldr (fun nd acc => nd.outputs ++ acc) []

/-- Modelled from the spec: the structural validation §4.5 requires of a
finalized graph before writing (exactly one declared input, at least one
declared output, no duplicate tensor names, no dangling references). No
such check exists anywhere in `src/`; this definition states what the
spec's writer would enforce, for comparison with `savedArtifact`. -/
def specValidCheck {V : Type} (g : Graph V) : Bool :=
  decide (g.input.length = 1)
    && !(g.output.isEmpty)
    && decide (tensorNames g).Nodup
    && g.node.all (fun nd => nd.inputs.all (fun s => (tensorNames g).contains s))
    && g.output.all (fun o => (tensorNames g).contains o)

/-- A structurally invalid graph: two (duplicate) declared inputs and no
declared output. -/
def invalidGraph : Graph Int where
  node := []
  input := [floatInput, floatInput]
  output := []
  initializer := []

/-- C6 counterexample: the writer performs no validation. Handed a
finalized graph that violates the spec's invariants (two duplicate declared
inputs, zero outputs), the code of `src/main.py` lines 147-150 writes it
unchanged instead of raising; no `GraphIntegrityError` exists in the
repository. -/
theorem writer_accepts_invalid_graph :
    specValidCheck invalidGraph = false
    ∧ savedArtifact (some invalidGraph) = some invalidGraph := by
  exact ⟨by decide, rfl⟩

/-- C6 amended: before writing, the code checks only that the accumulator
is non-`None` (`if combined_model:`). Whatever graph the fold produced —
even one failing every structural invariant — is written unchanged, and an
empty accumulator writes nothing. -/
theorem writer_no_validation {V : Type} (convert : Ident → Option (Graph V))
    (names : List Ident) :
    savedArtifact (exportRun convert names).1 = (exportRun convert names).1
    ∧ (∀ g : Graph V, specValidCheck g = false → savedArtifact (some g) = some g)
    ∧ savedArtifact (none : Option (Graph V)) = none :=
  ⟨rfl, fun _ _ => rfl, rfl⟩

/-- Concrete check of the amended C6 writer theorem: the invalid graph is
still written. -/
theorem writer_no_validation_check :
    specValidCheck invalidGraph = false
    ∧ savedArtifact (some invalidGraph) = some invalidGraph :=
  have h := writer_no_validation (fun _ => some invalidGraph) []
  have hv : specValidCheck invalidGraph = false := by decide
  ⟨hv, h.2.1 invalidGraph hv⟩

/-- Python `int()` on an exact rational: truncation toward zero
(`Int.tdiv` of the reduced numerator by the denominator). -/
def pyInt (q : ℚ) : ℤ := q.num.tdiv q.den

/-- The quantile suffix `f"_q{int(alpha*100)}"`
(`src/analysis/models.py` line 43). -/
def qSuffix (alpha : ℚ) : Ident := "_q".data ++ (toString (pyInt (alpha * 100))).data

/-- Python `str.endswith`. -/
def endsWith (s suf : Ident) : Bool := suf.isSuffixOf s

/-- `src/analysis/models.py` line 45: append the quantile suffix unless the
supplied name already ends with it. -/
def full_name (name : Ident) (alpha : ℚ) : Ident :=
  if endsWith name (qSuffix alpha) then name else name ++ qSuffix alpha

/-- A registry entry (`{'model': ..., 'log_transform': ...}`); the trained
model handle is external and elided. -/
structure ModelEntry where
  log_transform : Bool

/-- Python dict assignment `d[k] = v` on an insertion-ordered association
list: overwrite an existing key's value, else append the new key. -/
def dictSet {A : Type} (d : List (Ident × A)) (k : Ident) (v : A) :
    List (Ident × A) :=
  if d.any (fun p => p.1 == k) then
    d.map (fun p => if p.1 == k then (k, v) else p)
  else d ++ [(k, v)]

/-- `train_quantile_estimator` (`src/analysis/models.py` lines 41-62),
restricted to its registry effect: compute the full name and register the
trained model under it; returns the updated registry and the key used. -/
def train_quantile_estimator (models : List (Ident × ModelEntry)) (alpha : ℚ)
    (name : Ident) : List (Ident × ModelEntry) × Ident :=
  (dictSet models (full_name name alpha) ⟨false⟩, full_name name alpha)

/-- The key chosen by `dictSet` is present in the updated dictionary. -/
theorem dictSet_mem {A : Type} (d : List (Ident × A)) (k : Ident) (v : A) :
    (k, v) ∈ dictSet d k v := by
  unfold dictSet
  by_cases h : d.any (fun p => p.1 == k)
  · rw [if_pos h]
    rw [List.any_eq_true] at h
    obtain ⟨p, hp, hpk⟩ := h
    exact List.mem_map.mpr ⟨p, hp, by simp [hpk]⟩
  · rw [if_neg h]
    exact List.mem_append_right _ (List.mem_singleton.mpr rfl)

/-- C9: `train_quantile_estimator` registers the model under a key that
ends with the suffix `_q{int(alpha*100)}`, and the suffixing is idempotent:
a supplied name already carrying the suffix is registered unchanged. -/
theorem quantile_key_suffix (models : List (Ident × ModelEntry)) (alpha : ℚ)
    (name : Ident) :
    endsWith (train_quantile_estimator models alpha name).2 (qSuffix alpha) = true
    ∧ (∃ e, ((train_quantile_estimator models alpha name).2, e)
        ∈ (train_quantile_estimator models alpha name).1)
    ∧ (endsWith name (qSuffix alpha) = true →
        (train_quantile_estimator models alpha name).2 = name) := by
  have hkey : (train_quantile_estimator models alpha name).2
      = full_name name alpha := rfl
  refine ⟨?_, ⟨⟨false⟩, dictSet_mem models (full_name name alpha) ⟨false⟩⟩, ?_⟩
  · rw [hkey]
    unfold full_name
    by_cases h : endsWith name (qSuffix alpha) = true
    · rw [if_pos h]
      exact h
    · rw [if_neg h]
      exact List.isSuffixOf_iff_suffix.mpr (List.suffix_append name (qSuffix alpha))
  · intro h
    rw [hkey]
    unfold full_name
    rw [if_pos h]

/-- The quantile suffixes at the two alphas the analysis scripts use. -/
theorem qSuffix_eval :
    qSuffix (5 / 100) = "_q5".data ∧ qSuffix (95 / 100) = "_q95".data := by
  have h5 : pyInt ((5 : ℚ) / 100 * 100) = 5 := by
    rw [pyInt]
    norm_num
  have h95 : pyInt ((95 : ℚ) / 100 * 100) = 95 := by
    rw [pyInt]
    norm_num
  rw [qSuffix, qSuffix, h5, h95]
  exact ⟨rfl, rfl⟩

/-- Concrete check of C9 idempotence: registering `Price_Lower_q5` at
`alpha = 0.05` keeps the name unchanged (the suffix `_q5` is not doubled). -/
theorem quantile_key_suffix_check :
    endsWith ("Price_Lower_q5".data) (qSuffix (5 / 100)) = true
    ∧ (train_quantile_estimator [] (5 / 100) ("Price_Lower_q5".data)).2
        = "Price_Lower_q5".data :=
  have h : endsWith ("Price_Lower_q5".data) (qSuffix (5 / 100)) = true := by
    rw [qSuffix_eval.1]
    decide
  ⟨h, (quantile_key_suffix [] (5 / 100) ("Price_Lower_q5".data)).2.2 h⟩

/-- Python substring containment `pat in s`. -/
def containsSub (pat s : Ident) : Bool :=
  s.tails.any (fun t => pat.isPrefixOf t)

/-- Python `s.split(sep)` for a non-empty separator, with explicit fuel
(each step consumes at least one character, so `s.length + 1` always
suffices). -/
def pySplitGo (sep : Ident) : Nat → Ident → Ident → List Ident
  | 0, s, acc => [acc.reverse ++ s]
  | _ + 1, [], acc => [acc.reverse]
  | fuel + 1, c :: rest, acc =>
    if sep.isPrefixOf (c :: rest) then
      acc.reverse :: pySplitGo sep fuel (List.drop sep.length (c :: rest)) []
    else pySplitGo sep fuel rest (c :: acc)

/-- Python `s.split(sep)` (a non-empty separator; `split('')` raises). -/
def pySplit (sep s : Ident) : List Ident :=
  if sep.isEmpty then [s] else pySplitGo sep (s.length + 1) s []

/-- Numeric value of a nonempty all-digit string, `none` otherwise (where
Python `float()` would raise `ValueError`). The quantile levels occurring
in this program (`'5'`, `'95'`) are integers, so integer values are exact. -/
def digitsVal (cs : Ident) : Option ℤ :=
  cs.foldl (fun acc c =>
    acc.bind (fun a =>
      if c.isDigit then some (a * 10 + ((c.toNat - 48 : ℕ) : ℤ)) else none))
    (if cs.isEmpty then none else some 0)

/-- `sort_key` from `src/main.py` lines 69-72: `-1.0` for names containing
`'Point'`, the numeric level after the first `'_q'` for quantile names,
`0.0` otherwise. Python's float keys are integer-valued on every name this
program sorts, so integers represent them exactly; a name whose `_q` suffix
does not parse raises `ValueError` in Python and never occurs (`0` stands
in for that case). -/
def sort_key (n : Ident) : ℤ :=
  if containsSub ("Point".data) n then -1
  else if containsSub ("_q".data) n then
    (((pySplit ("_q".data) n).drop 1).head?.bind digitsVal).getD 0
  else 0

/-- `model_names.sort(key=sort_key)` (`src/main.py` line 74): a stable sort
by the key; Python's stable sort and insertion sort agree on lists whose
keys are pairwise distinct, as all this program's are. -/
def mergeOrder (names : List Ident) : List Ident :=
  List.insertionSort (fun a b => sort_key a ≤ sort_key b) names

/-- The six registry keys created by the training run, in insertion order:
`run_price_analysis` trains `Price_Point` and then quantiles at alphas
`0.05` / `0.95` on base names `Price_Lower` / `Price_Upper`
(`src/analysis/price_analysis.py` lines 11-17), and `run_revenue_analysis`
does the same for Revenue (`src/analysis/revenue_analysis.py` lines 13-18);
quantile keys go through `full_name`. -/
def registryNames : List Ident :=
  ["Price_Point".data,
   full_name ("Price_Lower".data) (5 / 100),
   full_name ("Price_Upper".data) (95 / 100),
   "Revenue_Point".data,
   full_name ("Revenue_Lower".data) (5 / 100),
   full_name ("Revenue_Upper".data) (95 / 100)]

/-- The registry keys, evaluated. -/
theorem registryNames_eval :
    registryNames = ["Price_Point".data, "Price_Lower_q5".data,
      "Price_Upper_q95".data, "Revenue_Point".data, "Revenue_Lower_q5".data,
      "Revenue_Upper_q95".data] := by
  simp only [registryNames, full_name, qSuffix_eval.1, qSuffix_eval.2]
  decide

/-- C8: the merge order is the sort's output: `mergeOrder` always sorts
ascending by `sort_key`, and on both groups of this run's registry it puts
the point-estimate model (key `-1`) first, then the quantile models by
ascending numeric level (`5` before `95`). -/
theorem groups_merge_order :
    (∀ names : List Ident,
      (mergeOrder names).Sorted (fun a b => sort_key a ≤ sort_key b))
    ∧ mergeOrder (modelGroups registryNames).1
        = ["Price_Point".data, "Price_Lower_q5".data, "Price_Upper_q95".data]
    ∧ mergeOrder (modelGroups registryNames).2
        = ["Revenue_Point".data, "Revenue_Lower_q5".data,
           "Revenue_Upper_q95".data]
    ∧ sort_key ("Price_Point".data) = -1
    ∧ sort_key ("Price_Lower_q5".data) = 5
    ∧ sort_key ("Price_Upper_q95".data) = 95
    ∧ sort_key ("Revenue_Point".data) = -1
    ∧ sort_key ("Revenue_Lower_q5".data) = 5
    ∧ sort_key ("Revenue_Upper_q95".data) = 95 := by
  constructor
  · intro names
    haveI : IsTotal Ident (fun a b => sort_key a ≤ sort_key b) :=
      ⟨fun a b => le_total _ _⟩
    haveI : IsTrans Ident (fun a b => sort_key a ≤ sort_key b) :=
      ⟨fun _ _ _ => le_trans⟩
    exact List.sorted_insertionSort _ names
  · rw [registryNames_eval]
    decide

/-- Price-side projection of one grouping step. -/
theorem groupStep_fst (st : List Ident × List Ident) (a : Ident) :
    (groupStep st a).1
      = if ("Price".data).isPrefixOf a then st.1 ++ [a] else st.1 := by
  unfold groupStep
  by_cases h1 : ("Price".data).isPrefixOf a <;>
    by_cases h2 : ("Revenue".data).isPrefixOf a <;> simp [h1, h2]

/-- Revenue-side projection of one grouping step. -/
theorem groupStep_snd (st : List Ident × List Ident) (a : Ident) :
    (groupStep st a).2
      = if ("Price".data).isPrefixOf a then st.2
        else if ("Revenue".data).isPrefixOf a then st.2 ++ [a] else st.2 := by
  unfold groupStep
  by_cases h1 : ("Price".data).isPrefixOf a <;>
    by_cases h2 : ("Revenue".data).isPrefixOf a <;> simp [h1, h2]

/-- Everything the grouping fold ever adds to the Price side starts with
`Price`. -/
theorem groupFold_fst_mem (l : List Ident) (st : List Ident × List Ident) :
    ∀ x ∈ (l.foldl groupStep st).1,
      x ∈ st.1 ∨ ("Price".data).isPrefixOf x = true := by
  induction l generalizing st with
  | nil => exact fun x hx => Or.inl hx
  | cons a t ih =>
    intro x hx
    rw [List.foldl_cons] at hx
    rcases ih (groupStep st a) x hx with h | h
    · rw [groupStep_fst] at h
      by_cases h1 : ("Price".data).isPrefixOf a
      · rw [if_pos h1] at h
        rcases List.mem_append.mp h with h' | h'
        · exact Or.inl h'
        · rw [List.mem_singleton] at h'
          subst h'
          exact Or.inr h1
      · rw [if_neg h1] at h
        exact Or.inl h
    · exact Or.inr h

/-- Everything the grouping fold ever adds to the Revenue side starts with
`Revenue`. -/
theorem groupFold_snd_mem (l : List Ident) (st : List Ident × List Ident) :
    ∀ x ∈ (l.foldl groupStep st).2,
      x ∈ st.2 ∨ ("Revenue".data).isPrefixOf x = true := by
  induction l generalizing st with
  | nil => exact fun x hx => Or.inl hx
  | cons a t ih =>
    intro x hx
    rw [List.foldl_cons] at hx
    rcases ih (groupStep st a) x hx with h | h
    · rw [groupStep_snd] at h
      by_cases h1 : ("Price".data).isPrefixOf a
      · rw [if_pos h1] at h
        exact Or.inl h
      · rw [if_neg h1] at h
        by_cases h2 : ("Revenue".data).isPrefixOf a
        · rw [if_pos h2] at h
          rcases List.mem_append.mp h with h' | h'
          · exact Or.inl h'
          · rw [List.mem_singleton] at h'
            subst h'
            exact Or.inr h2
        · rw [if_neg h2] at h
          exact Or.inl h
    · exact Or.inr h

/-- Members of the Price group start with `Price`. -/
theorem mem_modelGroups_fst {l : List Ident} {x : Ident}
    (h : x ∈ (modelGroups l).1) : ("Price".data).isPrefixOf x = true := by
  rcases groupFold_fst_mem l ([], []) x h with h' | h'
  · exact absurd h' (List.not_mem_nil x)
  · exact h'

/-- Members of the Revenue group start with `Revenue`. -/
theorem mem_modelGroups_snd {l : List Ident} {x : Ident}
    (h : x ∈ (modelGroups l).2) : ("Revenue".data).isPrefixOf x = true := by
  rcases groupFold_snd_mem l ([], []) x h with h' | h'
  · exact absurd h' (List.not_mem_nil x)
  · exact h'

/-- `exportStep` on a failing conversion only records the failure. -/
theorem exportStep_none {V : Type} {convert : Ident → Option (Graph V)}
    {nm : Ident} (st : Option (Graph V) × List Ident)
    (h : convert nm = none) : exportStep convert st nm = (st.1, st.2 ++ [nm]) := by
  simp [exportStep, h]

/-- `exportStep` on a successful conversion merges the renamed graph. -/
theorem exportStep_some {V : Type} {convert : Ident → Option (Graph V)}
    {nm : Ident} {g : Graph V} (st : Option (Graph V) × List Ident)
    (h : convert nm = some g) :
    exportStep convert st nm
      = (some (mergeStep st.1 nm (renameOutput g nm)), st.2) := by
  simp [exportStep, h]

/-- The failure report of the export fold is exactly the names whose
conversion failed, in order. -/
theorem exportFold_failures {V : Type} (convert : Ident → Option (Graph V)) :
    ∀ (names : List Ident) (st : Option (Graph V) × List Ident),
      (names.foldl (exportStep convert) st).2
        = st.2 ++ names.filter (fun n => (convert n).isNone) := by
  intro names
  induction names with
  | nil => intro st; simp
  | cons a t ih =>
    intro st
    rw [List.foldl_cons, ih, List.filter_cons]
    cases hc : convert a with
    | none => simp [exportStep_none st hc, hc]
    | some g => simp [exportStep_some st hc, hc]

/-- The failure report of a whole group run. -/
theorem exportRun_failures {V : Type} (convert : Ident → Option (Graph V))
    (names : List Ident) :
    (exportRun convert names).2
      = names.filter (fun n => (convert n).isNone) := by
  rw [exportRun, exportFold_failures]
  simp

/-- Renaming the output of a single-output graph. -/
theorem renameOutput_single {V : Type} {g : Graph V} {o : Ident} (nm : Ident)
    (h : g.output = [o]) : (renameOutput g nm).output = [nm] := by
  unfold renameOutput
  rw [h]

/-- Rewiring never touches declared outputs. -/
theorem rewireInput_output {V : Type} (nm : Ident) (g : Graph V) :
    (rewireInput nm g).output = g.output := rfl

/-- Declared outputs of a non-initial merge step: the accumulator's outputs
followed by the incoming graph's outputs, each with the `f"{name}_"` prefix
applied by `add_prefix`. -/
theorem mergeStep_some_output {V : Type} (a : Graph V) (nm : Ident)
    (g : Graph V) :
    (mergeStep (some a) nm g).output
      = a.output ++ g.output.map (fun s => (nm ++ ['_']) ++ s) := rfl

/-- Every declared output of the fold's result graph either came with the
starting accumulator or has some processed model name as a (list) prefix. -/
theorem exportFold_output_origin {V : Type} (convert : Ident → Option (Graph V))
    (hconv : ∀ m g, convert m = some g → ∃ o, g.output = [o]) :
    ∀ (names : List Ident) (st : Option (Graph V) × List Ident) (g : Graph V),
      (names.foldl (exportStep convert) st).1 = some g →
      ∀ o ∈ g.output,
        (∃ a, st.1 = some a ∧ o ∈ a.output) ∨ ∃ m ∈ names, m <+: o := by
  intro names
  induction names with
  | nil =>
    intro st g hg o ho
    exact Or.inl ⟨g, hg, ho⟩
  | cons a t ih =>
    intro st g hg o ho
    rw [List.foldl_cons] at hg
    rcases ih (exportStep convert st a) g hg o ho with h | h
    · obtain ⟨a', ha', hoa⟩ := h
      cases hc : convert a with
      | none =>
        rw [exportStep_none st hc] at ha'
        exact Or.inl ⟨a', ha', hoa⟩
      | some gc =>
        rw [exportStep_some st hc] at ha'
        rw [Option.some.injEq] at ha'
        obtain ⟨o₀, ho₀⟩ := hconv a gc hc
        cases hst : st.1 with
        | none =>
          rw [hst] at ha'
          have hout : a'.output = [a] := by
            rw [← ha']
            exact renameOutput_single a ho₀
          rw [hout, List.mem_singleton] at hoa
          subst hoa
          exact Or.inr ⟨_, List.mem_cons_self _ _, List.prefix_refl _⟩
        | some acc =>
          rw [hst] at ha'
          have hout : a'.output
              = acc.output ++ [(a ++ ['_']) ++ a] := by
            rw [← ha', mergeStep_some_output, renameOutput_single a ho₀]
            rfl
          rw [hout] at hoa
          rcases List.mem_append.mp hoa with h' | h'
          · exact Or.inl ⟨acc, rfl, h'⟩
          · rw [List.mem_singleton] at h'
            subst h'
            rw [List.append_assoc]
            exact Or.inr ⟨a, List.mem_cons_self a t, List.prefix_append a _⟩
    · obtain ⟨m, hm, hpre⟩ := h
      exact Or.inr ⟨m, List.mem_cons_of_mem a hm, hpre⟩

/-- C10: a registry model whose name starts with neither `Price` nor
`Revenue` is assigned to no export group; consequently, over either group's
export run it is never reported as a failure and it names no declared
output of the written artifact. The run itself is a total function, so
nothing is raised for such a model. -/
theorem ungrouped_model_untouched {V : Type} (registry : List Ident)
    (convert : Ident → Option (Graph V)) (n : Ident)
    (hp : ("Price".data).isPrefixOf n = false)
    (hr : ("Revenue".data).isPrefixOf n = false)
    (hconv : ∀ m g, convert m = some g → ∃ o, g.output = [o]) :
    n ∉ (modelGroups registry).1 ∧ n ∉ (modelGroups registry).2
    ∧ (∀ gnames : List Ident,
        gnames = (modelGroups registry).1 ∨ gnames = (modelGroups registry).2 →
        n ∉ (exportRun convert (mergeOrder gnames)).2
        ∧ ∀ g, savedArtifact (exportRun convert (mergeOrder gnames)).1 = some g →
            n ∉ g.output) := by
  have hmem1 : n ∉ (modelGroups registry).1 := by
    intro hmem
    rw [mem_modelGroups_fst hmem] at hp
    exact Bool.noConfusion hp
  have hmem2 : n ∉ (modelGroups registry).2 := by
    intro hmem
    rw [mem_modelGroups_snd hmem] at hr
    exact Bool.noConfusion hr
  refine ⟨hmem1, hmem2, ?_⟩
  intro gnames hgn
  have hpre : ∀ m ∈ gnames,
      ("Price".data).isPrefixOf m = true ∨ ("Revenue".data).isPrefixOf m = true := by
    rcases hgn with h | h <;> subst h
    · exact fun m hm => Or.inl (mem_modelGroups_fst hm)
    · exact fun m hm => Or.inr (mem_modelGroups_snd hm)
  have hmo : ∀ m ∈ mergeOrder gnames,
      ("Price".data).isPrefixOf m = true ∨ ("Revenue".data).isPrefixOf m = true :=
    fun m hm => hpre m ((List.perm_insertionSort _ gnames).mem_iff.mp hm)
  constructor
  · intro hfail
    rw [exportRun_failures] at hfail
    have hin : n ∈ mergeOrder gnames := List.mem_of_mem_filter hfail
    rcases hmo n hin with h | h
    · rw [h] at hp
      exact Bool.noConfusion hp
    · rw [h] at hr
      exact Bool.noConfusion hr
  · intro g hg hno
    have horig := exportFold_output_origin convert hconv (mergeOrder gnames)
      (none, []) g hg n hno
    rcases horig with ⟨a, ha, _⟩ | ⟨m, hm, hpn⟩
    · exact Option.noConfusion ha
    · have hmpre : m <+: n := hpn
      rcases hmo m hm with h | h
      · have : ("Price".data).isPrefixOf n = true :=
          List.isPrefixOf_iff_prefix.mpr
            ((List.isPrefixOf_iff_prefix.mp h).trans hmpre)
        rw [this] at hp
        exact Bool.noConfusion hp
      · have : ("Revenue".data).isPrefixOf n = true :=
          List.isPrefixOf_iff_prefix.mpr
            ((List.isPrefixOf_iff_prefix.mp h).trans hmpre)
        rw [this] at hr
        exact Bool.noConfusion hr

/-- A registry carrying a comment-analysis model next to a Price model. -/
def commentRegistry : List Ident :=
  ["Comment_TextBlob".data, "Price_Point".data]

/-- Concrete check of C10: the comment model joins neither group. -/
theorem ungrouped_model_untouched_check :
    "Comment_TextBlob".data ∉ (modelGroups commentRegistry).1
    ∧ "Comment_TextBlob".data ∉ (modelGroups commentRegistry).2 :=
  have h := ungrouped_model_untouched commentRegistry
    (fun _ => some sampleConverted) ("Comment_TextBlob".data)
    (by decide) (by decide)
    (fun _ g hmg => ⟨"variable".data, by rw [← Option.some.inj hmg]; rfl⟩)
  ⟨h.1, h.2.1⟩

/-- An evaluation environment: named tensor values. -/
def Env (V : Type) : Type := Ident → Option V

/-- Bind one tensor value. -/
def envSet {V : Type} (e : Env V) (n : Ident) (v : V) : Env V :=
  fun s => if s = n then some v else e s

/-- The empty environment. -/
def envNone (V : Type) : Env V := fun _ => none

/-- Bind a node's output names to the values its operation produced;
fails on an arity mismatch. -/
def bindOuts {V : Type} (e : Env V) : List Ident → List V → Option (Env V)
  | [], [] => some e
  | n :: ns, v :: vs => bindOuts (envSet e n v) ns vs
  | _, _ => none

/-- Look up a list of tensor names; fails on the first unbound name. -/
def lookAll {V : Type} (e : Env V) : List Ident → Option (List V)
  | [] => some []
  | n :: ns =>
    match e n, lookAll e ns with
    | some v, some vs => some (v :: vs)
    | _, _ => none

/-- Execute one node: read its inputs, apply its operation, bind its
outputs. -/
def runNode {V : Type} (e : Env V) (nd : Node V) : Option (Env V) :=
  match lookAll e nd.inputs with
  | none => none
  | some ins => bindOuts e nd.outputs (nd.op ins)

/-- Execute a node list in order. -/
def runNodes {V : Type} (e : Env V) : List (Node V) → Option (Env V)
  | [] => some e
  | nd :: ns =>
    match runNode e nd with
    | none => none
    | some e' => runNodes e' ns

/-- Bind a list of (name, value) pairs, later pairs shadowing earlier ones. -/
def envOfPairs {V : Type} (e : Env V) : List (Ident × V) → Env V
  | [] => e
  | (n, v) :: rest => envOfPairs (envSet e n v) rest

/-- The starting environment of a graph evaluation: initializers bound
first, then every declared input bound to the batch `x`. `V` abstracts a
whole tensor (a batch), so one value feeds the one shared input. -/
def initEnvG {V : Type} (g : Graph V) (x : V) : Env V :=
  g.input.foldl (fun e n => envSet e n x) (envOfPairs (envNone V) g.initializer)

/-- Run a graph on a batch and read its declared outputs, in declaration
order. -/
def outVals {V : Type} (g : Graph V) (x : V) : Option (List V) :=
  match runNodes (initEnvG g x) g.node with
  | none => none
  | some e => lookAll e g.output

/-- Run a graph on a batch: its declared output names paired with their
values. -/
def evalGraph {V : Type} (g : Graph V) (x : V) : Option (List (Ident × V)) :=
  (outVals g x).map (fun vs => g.output.zip vs)

/-- The (single) output value of a converted model's graph on a batch. -/
def srcVal {V : Type} (h : Graph V) (x : V) : Option V :=
  match outVals h x with
  | some (v :: _) => some v
  | _ => none

/-- The output values of a list of converted models, each evaluated alone
on the same batch. -/
def allSrcVals {V : Type} : List (Ident × Graph V) → V → Option (List V)
  | [], _ => some []
  | (_, h) :: rest, x =>
    match srcVal h x, allSrcVals rest x with
    | some v, some vs => some (v :: vs)
    | _, _ => none

/-- Every name read by some node of the list. -/
def nodeReads {V : Type} (ns : List (Node V)) : List Ident :=
  ns.foldr (fun nd acc => nd.inputs ++ acc) []

/-- Every name written by some node of the list. -/
def nodeWrites {V : Type} (ns : List (Node V)) : List Ident :=
  ns.foldr (fun nd acc => nd.outputs ++ acc) []

/-- Every symbol a graph mentions. -/
def syms {V : Type} (g : Graph V) : List Ident :=
  g.input ++ g.output ++ g.initializer.map Prod.fst
    ++ nodeReads g.node ++ nodeWrites g.node

/-- The converter contract for the graph of the model named `nm`, after
the output rename: one declared input `float_input`, one declared output
named `nm`, the model name distinct from the input name, and no node
producing the declared input (spec §3: declared inputs are produced by no
node). -/
def pairOK {V : Type} (nm : Ident) (h : Graph V) : Prop :=
  h.input = [floatInput] ∧ h.output = [nm] ∧ nm ≠ floatInput
    ∧ ∀ nd ∈ h.node, floatInput ∉ nd.outputs

/-- Freshness of the `f"{nm}_"` prefix against the accumulated symbol set
`S`: no prefixed symbol of the incoming graph is `float_input` or collides
with `S`. This is the no-collision invariant the prefixing is for (§7's
`NameCollisionError` "should not occur"). -/
def freshFor {V : Type} (nm : Ident) (h : Graph V) (S : List Ident) : Prop :=
  ((nm ++ ['_']).isPrefixOf floatInput = false)
    ∧ ∀ s ∈ syms h, (nm ++ '_' :: s) ∉ S

/-- Freshness of each pair in sequence against the growing symbol set. -/
def groupFresh {V : Type} : List Ident → List (Ident × Graph V) → Prop
  | _, [] => True
  | S, (nm, h) :: rest =>
      pairOK nm h ∧ freshFor nm h S
        ∧ groupFresh (S ++ (syms h).map (fun s => nm ++ '_' :: s)) rest

/-- The whole group's contract: every converted-and-renamed graph honours
the converter contract and each prefix is fresh for everything before it. -/
def groupOK {V : Type} : List (Ident × Graph V) → Prop
  | [] => True
  | (nm, h) :: rest => pairOK nm h ∧ groupFresh (floatInput :: syms h) rest

/-- The declared output names the fold produces for a pair list: the first
model's registry name, then each later model's name doubled by its own
prefix (`add_prefix` renames the already-renamed output). -/
def derivedOuts {V : Type} : List (Ident × Graph V) → List Ident
  | [] => []
  | (nm, _) :: rest => nm :: rest.map (fun q => q.1 ++ '_' :: q.1)

/-- The successfully converted models of a group, each paired with its
renamed graph, in merge order. -/
def renamedPairs {V : Type} (convert : Ident → Option (Graph V))
    (names : List Ident) : List (Ident × Graph V) :=
  names.filterMap (fun nm => (convert nm).map (fun g => (nm, renameOutput g nm)))

/-- The merge fold over an already-converted pair list, from a live
accumulator. -/
def foldMerge {V : Type} (m : Graph V) : List (Ident × Graph V) → Graph V
  | [] => m
  | q :: rest => foldMerge (mergeStep (some m) q.1 q.2) rest

/-- Relate two optional results: both absent, or both present and related. -/
def OptRel {A B : Type} (R : A → B → Prop) : Option A → Option B → Prop
  | none, none => True
  | some a, some b => R a b
  | _, _ => False

/-- Two environments that agree everywhere outside `D`. -/
def ExceptOn {V : Type} (D : List Ident) (e₁ e₂ : Env V) : Prop :=
  ∀ s, s ∉ D → e₁ s = e₂ s

/-- The effective renaming the prefix-then-rewire pipeline applies to a
node input entry: the shared input keeps its name, everything else is
prefixed. -/
def rhoSub (p s : Ident) : Ident := if s = floatInput then floatInput else p ++ s

/-- The image of one node of the incoming graph inside the merged graph:
name and outputs prefixed by `add_prefix`, inputs prefixed and then rewired. -/
def prefNode {V : Type} (p : Ident) (nd : Node V) : Node V where
  name := p ++ nd.name
  inputs := nd.inputs.map (rhoSub p)
  outputs := nd.outputs.map (fun s => p ++ s)
  op := nd.op

/-- The simulation coupling between the merged graph's environment and the
incoming source graph's: they agree on the shared input, and the merged
environment sees each source symbol of `N` under the prefix. -/
def Coupled {V : Type} (p : Ident) (N : List Ident) (eM eB : Env V) : Prop :=
  eM floatInput = eB floatInput
    ∧ ∀ s ∈ N, s ≠ floatInput → eM (p ++ s) = eB s

theorem envSet_same {V : Type} (e : Env V) (n : Ident) (v : V) :
    envSet e n v n = some v := by
  simp [envSet]

theorem envSet_other {V : Type} (e : Env V) {s n : Ident} (h : s ≠ n) (v : V) :
    envSet e n v s = e s := by
  simp [envSet, h]

theorem lookAll_congr {V : Type} {e₁ e₂ : Env V} :
    ∀ {ns : List Ident}, (∀ s ∈ ns, e₁ s = e₂ s) →
      lookAll e₁ ns = lookAll e₂ ns := by
  intro ns
  induction ns with
  | nil => intro _; rfl
  | cons n t ih =>
    intro h
    have hn := h n (List.mem_cons_self n t)
    have ht := ih (fun s hs => h s (List.mem_cons_of_mem n hs))
    simp only [lookAll, hn, ht]

theorem lookAll_map_eq {V : Type} {eM eB : Env V} (f : Ident → Ident) :
    ∀ {ns : List Ident}, (∀ s ∈ ns, eM (f s) = eB s) →
      lookAll eM (ns.map f) = lookAll eB ns := by
  intro ns
  induction ns with
  | nil => intro _; rfl
  | cons n t ih =>
    intro h
    have hn := h n (List.mem_cons_self n t)
    have ht := ih (fun s hs => h s (List.mem_cons_of_mem n hs))
    simp only [List.map_cons, lookAll, hn, ht]

theorem lookAll_append {V : Type} (e : Env V) :
    ∀ l₁ l₂ : List Ident,
      lookAll e (l₁ ++ l₂)
        = match lookAll e l₁, lookAll e l₂ with
          | some a, some b => some (a ++ b)
          | _, _ => none := by
  intro l₁
  induction l₁ with
  | nil =>
    intro l₂
    simp only [List.nil_append, lookAll]
    cases lookAll e l₂ <;> rfl
  | cons n t ih =>
    intro l₂
    simp only [List.cons_append, lookAll, List.append_eq, ih]
    cases e n <;> cases lookAll e t <;> cases lookAll e l₂ <;> rfl

theorem bindOuts_frame {V : Type} :
    ∀ (os : List Ident) (vs : List V) (e e' : Env V),
      bindOuts e os vs = some e' → ∀ s, s ∉ os → e' s = e s := by
  intro os
  induction os with
  | nil =>
    intro vs e e' hb s _
    cases vs with
    | nil => cases hb; rfl
    | cons v vs => exact absurd hb (by simp [bindOuts])
  | cons o t ih =>
    intro vs e e' hb s hs
    cases vs with
    | nil => exact absurd hb (by simp [bindOuts])
    | cons v vs =>
      rw [bindOuts] at hb
      have hne : s ≠ o := fun h => hs (h ▸ List.mem_cons_self o t)
      rw [ih vs _ e' hb s (fun h => hs (List.mem_cons_of_mem o h))]
      exact envSet_other e hne v

theorem runNode_frame {V : Type} {e e' : Env V} {nd : Node V}
    (h : runNode e nd = some e') : ∀ s, s ∉ nd.outputs → e' s = e s := by
  intro s hs
  rw [runNode] at h
  cases hl : lookAll e nd.inputs with
  | none => rw [hl] at h; exact absurd h (by simp)
  | some ins =>
    rw [hl] at h
    exact bindOuts_frame nd.outputs (nd.op ins) e e' h s hs

theorem runNodes_frame {V : Type} :
    ∀ (ns : List (Node V)) (e e' : Env V),
      runNodes e ns = some e' → ∀ s, s ∉ nodeWrites ns → e' s = e s := by
  intro ns
  induction ns with
  | nil => intro e e' h s _; cases h; rfl
  | cons nd t ih =>
    intro e e' h s hs
    rw [runNodes] at h
    cases hr : runNode e nd with
    | none => rw [hr] at h; exact absurd h (by simp)
    | some e₁ =>
      rw [hr] at h
      have hs₁ : s ∉ nd.outputs := by
        intro hmem
        exact hs (by simp [nodeWrites]; exact Or.inl hmem)
      have hs₂ : s ∉ nodeWrites t := by
        intro hmem
        apply hs
        simp only [nodeWrites, List.foldr_cons] at *
        exact List.mem_append_right _ hmem
      rw [ih e₁ e' h s hs₂]
      exact runNode_frame hr s hs₁

theorem runNodes_append {V : Type} :
    ∀ (as bs : List (Node V)) (e : Env V),
      runNodes e (as ++ bs)
        = match runNodes e as with
          | none => none
          | some e' => runNodes e' bs := by
  intro as
  induction as with
  | nil => intro bs e; rfl
  | cons nd t ih =>
    intro bs e
    simp only [List.cons_append, runNodes]
    cases runNode e nd with
    | none => rfl
    | some e' => exact ih bs e'

theorem envOfPairs_notMem {V : Type} :
    ∀ (l : List (Ident × V)) (e : Env V) (s : Ident),
      s ∉ l.map Prod.fst → envOfPairs e l s = e s := by
  intro l
  induction l with
  | nil => intro e s _; rfl
  | cons q t ih =>
    intro e s hs
    obtain ⟨n, v⟩ := q
    simp only [List.map_cons, List.mem_cons] at hs
    push_neg at hs
    rw [envOfPairs, ih _ s hs.2]
    exact envSet_other e hs.1 v

theorem envOfPairs_append {V : Type} :
    ∀ (l₁ l₂ : List (Ident × V)) (e : Env V),
      envOfPairs e (l₁ ++ l₂) = envOfPairs (envOfPairs e l₁) l₂ := by
  intro l₁
  induction l₁ with
  | nil => intro l₂ e; rfl
  | cons q t ih =>
    intro l₂ e
    obtain ⟨n, v⟩ := q
    simp only [List.cons_append, envOfPairs]
    exact ih l₂ (envSet e n v)

theorem envOfPairs_prefixed_at {V : Type} (p s : Ident) :
    ∀ (l : List (Ident × V)) (e₂ e₁ : Env V),
      e₂ (p ++ s) = e₁ s →
      envOfPairs e₂ (l.map (fun q => (p ++ q.1, q.2))) (p ++ s)
        = envOfPairs e₁ l s := by
  intro l
  induction l with
  | nil => intro e₂ e₁ h; exact h
  | cons q t ih =>
    intro e₂ e₁ h
    obtain ⟨n, v⟩ := q
    simp only [List.map_cons, envOfPairs]
    apply ih
    by_cases hsn : s = n
    · subst hsn
      rw [envSet_same, envSet_same]
    · have hpn : p ++ s ≠ p ++ n := fun hc => hsn (List.append_cancel_left hc)
      rw [envSet_other e₂ hpn v, envSet_other e₁ hsn v]
      exact h

theorem mem_nodeReads {V : Type} :
    ∀ {ns : List (Node V)} {nd : Node V}, nd ∈ ns →
      ∀ {s : Ident}, s ∈ nd.inputs → s ∈ nodeReads ns := by
  intro ns
  induction ns with
  | nil => intro nd h; exact absurd h (List.not_mem_nil nd)
  | cons a t ih =>
    intro nd hnd s hs
    simp only [nodeReads, List.foldr_cons]
    rcases List.mem_cons.mp hnd with h | h
    · subst h
      exact List.mem_append_left _ hs
    · exact List.mem_append_right _ (ih h hs)

theorem mem_nodeWrites {V : Type} :
    ∀ {ns : List (Node V)} {nd : Node V}, nd ∈ ns →
      ∀ {s : Ident}, s ∈ nd.outputs → s ∈ nodeWrites ns := by
  intro ns
  induction ns with
  | nil => intro nd h; exact absurd h (List.not_mem_nil nd)
  | cons a t ih =>
    intro nd hnd s hs
    simp only [nodeWrites, List.foldr_cons]
    rcases List.mem_cons.mp hnd with h | h
    · subst h
      exact List.mem_append_left _ hs
    · exact List.mem_append_right _ (ih h hs)

theorem nodeReads_mem {V : Type} :
    ∀ {ns : List (Node V)} {s : Ident}, s ∈ nodeReads ns →
      ∃ nd ∈ ns, s ∈ nd.inputs := by
  intro ns
  induction ns with
  | nil => intro s h; exact absurd h (List.not_mem_nil s)
  | cons a t ih =>
    intro s hs
    simp only [nodeReads, List.foldr_cons] at hs
    rcases List.mem_append.mp hs with h | h
    · exact ⟨a, List.mem_cons_self a t, h⟩
    · obtain ⟨nd, hnd, hmem⟩ := ih h
      exact ⟨nd, List.mem_cons_of_mem a hnd, hmem⟩

theorem nodeWrites_mem {V : Type} :
    ∀ {ns : List (Node V)} {s : Ident}, s ∈ nodeWrites ns →
      ∃ nd ∈ ns, s ∈ nd.outputs := by
  intro ns
  induction ns with
  | nil => intro s h; exact absurd h (List.not_mem_nil s)
  | cons a t ih =>
    intro s hs
    simp only [nodeWrites, List.foldr_cons] at hs
    rcases List.mem_append.mp hs with h | h
    · exact ⟨a, List.mem_cons_self a t, h⟩
    · obtain ⟨nd, hnd, hmem⟩ := ih h
      exact ⟨nd, List.mem_cons_of_mem a hnd, hmem⟩

theorem input_mem_syms {V : Type} {g : Graph V} {s : Ident}
    (h : s ∈ g.input) : s ∈ syms g := by
  simp only [syms, List.mem_append]
  tauto

theorem output_mem_syms {V : Type} {g : Graph V} {s : Ident}
    (h : s ∈ g.output) : s ∈ syms g := by
  simp only [syms, List.mem_append]
  tauto

theorem initKey_mem_syms {V : Type} {g : Graph V} {s : Ident}
    (h : s ∈ g.initializer.map Prod.fst) : s ∈ syms g := by
  simp only [syms, List.mem_append]
  tauto

theorem read_mem_syms {V : Type} {g : Graph V} {s : Ident}
    (h : s ∈ nodeReads g.node) : s ∈ syms g := by
  simp only [syms, List.mem_append]
  tauto

theorem write_mem_syms {V : Type} {g : Graph V} {s : Ident}
    (h : s ∈ nodeWrites g.node) : s ∈ syms g := by
  simp only [syms, List.mem_append]
  tauto

theorem exceptOn_envSet {V : Type} {D : List Ident} {e₁ e₂ : Env V}
    (h : ExceptOn D e₁ e₂) (n : Ident) (v : V) :
    ExceptOn D (envSet e₁ n v) (envSet e₂ n v) := by
  intro s hs
  by_cases hsn : s = n
  · subst hsn
    rw [envSet_same, envSet_same]
  · rw [envSet_other _ hsn, envSet_other _ hsn]
    exact h s hs

theorem exceptOn_bindOuts {V : Type} {D : List Ident} :
    ∀ (os : List Ident) (vs : List V) {e₁ e₂ : Env V}, ExceptOn D e₁ e₂ →
      OptRel (ExceptOn D) (bindOuts e₁ os vs) (bindOuts e₂ os vs) := by
  intro os
  induction os with
  | nil =>
    intro vs e₁ e₂ h
    cases vs with
    | nil => exact h
    | cons v vs => exact trivial
  | cons o t ih =>
    intro vs e₁ e₂ h
    cases vs with
    | nil => exact trivial
    | cons v vs =>
      rw [bindOuts, bindOuts]
      exact ih vs (exceptOn_envSet h o v)

theorem exceptOn_runNode {V : Type} {D : List Ident} {e₁ e₂ : Env V}
    (h : ExceptOn D e₁ e₂) (nd : Node V)
    (hin : ∀ s ∈ nd.inputs, s ∉ D) :
    OptRel (ExceptOn D) (runNode e₁ nd) (runNode e₂ nd) := by
  rw [runNode, runNode]
  have hl : lookAll e₁ nd.inputs = lookAll e₂ nd.inputs :=
    lookAll_congr (fun s hs => h s (hin s hs))
  rw [hl]
  cases lookAll e₂ nd.inputs with
  | none => exact trivial
  | some ins => exact exceptOn_bindOuts nd.outputs (nd.op ins) h

theorem exceptOn_runNodes {V : Type} {D : List Ident} :
    ∀ (ns : List (Node V)) {e₁ e₂ : Env V}, ExceptOn D e₁ e₂ →
      (∀ nd ∈ ns, ∀ s ∈ nd.inputs, s ∉ D) →
      OptRel (ExceptOn D) (runNodes e₁ ns) (runNodes e₂ ns) := by
  intro ns
  induction ns with
  | nil => intro e₁ e₂ h _; exact h
  | cons nd t ih =>
    intro e₁ e₂ h hin
    rw [runNodes, runNodes]
    have hr := exceptOn_runNode h nd (hin nd (List.mem_cons_self nd t))
    cases h₁ : runNode e₁ nd with
    | none =>
      rw [h₁] at hr
      cases h₂ : runNode e₂ nd with
      | none => exact trivial
      | some e₂' => rw [h₂] at hr; exact absurd hr (by simp [OptRel])
    | some e₁' =>
      rw [h₁] at hr
      cases h₂ : runNode e₂ nd with
      | none => rw [h₂] at hr; exact absurd hr (by simp [OptRel])
      | some e₂' =>
        rw [h₂] at hr
        exact ih hr (fun nd' hnd' => hin nd' (List.mem_cons_of_mem nd hnd'))

theorem coupled_envSet {V : Type} {p : Ident} {N : List Ident} {eM eB : Env V}
    (hc : Coupled p N eM eB) (hpne : ∀ s, p ++ s ≠ floatInput)
    {o : Ident} (ho : o ≠ floatInput) (v : V) :
    Coupled p N (envSet eM (p ++ o) v) (envSet eB o v) := by
  constructor
  · rw [envSet_other eM (fun h => hpne o h.symm) v]
    rw [envSet_other eB (fun h => ho h.symm) v]
    exact hc.1
  · intro s hs hsf
    by_cases hso : s = o
    · subst hso
      rw [envSet_same, envSet_same]
    · have hps : p ++ s ≠ p ++ o := fun hcc => hso (List.append_cancel_left hcc)
      rw [envSet_other eM hps v, envSet_other eB hso v]
      exact hc.2 s hs hsf

theorem coupled_bindOuts {V : Type} {p : Ident} {N : List Ident}
    (hpne : ∀ s, p ++ s ≠ floatInput) :
    ∀ (os : List Ident) (vs : List V) {eM eB : Env V},
      Coupled p N eM eB → floatInput ∉ os →
      OptRel (Coupled p N)
        (bindOuts eM (os.map (fun s => p ++ s)) vs) (bindOuts eB os vs) := by
  intro os
  induction os with
  | nil =>
    intro vs eM eB hc _
    cases vs with
    | nil => exact hc
    | cons v vs => exact trivial
  | cons o t ih =>
    intro vs eM eB hc hnf
    cases vs with
    | nil => exact trivial
    | cons v vs =>
      simp only [List.map_cons, bindOuts]
      have ho : o ≠ floatInput := fun h => hnf (h ▸ List.mem_cons_self o t)
      exact ih vs (coupled_envSet hc hpne ho v)
        (fun h => hnf (List.mem_cons_of_mem o h))

theorem coupled_runNode {V : Type} {p : Ident} {N : List Ident}
    (hpne : ∀ s, p ++ s ≠ floatInput) (nd : Node V)
    (hin : ∀ s ∈ nd.inputs, s ∈ N) (hof : floatInput ∉ nd.outputs)
    {eM eB : Env V} (hc : Coupled p N eM eB) :
    OptRel (Coupled p N) (runNode eM (prefNode p nd)) (runNode eB nd) := by
  rw [runNode, runNode]
  have hl : lookAll eM (prefNode p nd).inputs = lookAll eB nd.inputs := by
    show lookAll eM (nd.inputs.map (rhoSub p)) = lookAll eB nd.inputs
    apply lookAll_map_eq
    intro s hs
    by_cases hsf : s = floatInput
    · subst hsf
      show eM (rhoSub p floatInput) = eB floatInput
      rw [rhoSub, if_pos rfl]
      exact hc.1
    · show eM (rhoSub p s) = eB s
      rw [rhoSub, if_neg hsf]
      exact hc.2 s (hin s hs) hsf
  rw [hl]
  cases lookAll eB nd.inputs with
  | none => exact trivial
  | some ins =>
    show OptRel (Coupled p N)
      (bindOuts eM (nd.outputs.map (fun s => p ++ s)) (nd.op ins))
      (bindOuts eB nd.outputs (nd.op ins))
    exact coupled_bindOuts hpne nd.outputs (nd.op ins) hc hof

theorem coupled_runNodes {V : Type} {p : Ident} {N : List Ident}
    (hpne : ∀ s, p ++ s ≠ floatInput) :
    ∀ (ns : List (Node V)) {eM eB : Env V},
      Coupled p N eM eB →
      (∀ nd ∈ ns, (∀ s ∈ nd.inputs, s ∈ N) ∧ floatInput ∉ nd.outputs) →
      OptRel (Coupled p N)
        (runNodes eM (ns.map (prefNode p))) (runNodes eB ns) := by
  intro ns
  induction ns with
  | nil => intro eM eB hc _; exact hc
  | cons nd t ih =>
    intro eM eB hc hcond
    simp only [List.map_cons, runNodes]
    obtain ⟨hin, hof⟩ := hcond nd (List.mem_cons_self nd t)
    have hr := coupled_runNode hpne nd hin hof hc
    cases h₁ : runNode eM (prefNode p nd) with
    | none =>
      rw [h₁] at hr
      cases h₂ : runNode eB nd with
      | none => exact trivial
      | some eB' => rw [h₂] at hr; exact absurd hr (by simp [OptRel])
    | some eM' =>
      rw [h₁] at hr
      cases h₂ : runNode eB nd with
      | none => rw [h₂] at hr; exact absurd hr (by simp [OptRel])
      | some eB' =>
        rw [h₂] at hr
        exact ih hr (fun nd' hnd' => hcond nd' (List.mem_cons_of_mem nd hnd'))

theorem append_singleton_cons (nm s : Ident) :
    (nm ++ ['_']) ++ s = nm ++ '_' :: s := by
  simp

theorem redundantInput_eq (nm : Ident) :
    redundantInput nm = (nm ++ ['_']) ++ floatInput := by
  simp [redundantInput]

/-- A prefix that is not a (list) prefix of `float_input` never produces
`float_input` when something is appended to it. -/
theorem freshFor_pne {nm : Ident}
    (hp : (nm ++ ['_']).isPrefixOf floatInput = false) :
    ∀ s, (nm ++ ['_']) ++ s ≠ floatInput := by
  intro s hcc
  have : (nm ++ ['_']).isPrefixOf floatInput = true :=
    List.isPrefixOf_iff_prefix.mpr ⟨s, hcc⟩
  rw [this] at hp
  exact Bool.noConfusion hp

theorem mergeStep_single_input {V : Type} {m h : Graph V} (nm : Ident)
    (hm : m.input = [floatInput]) (hh : h.input = [floatInput]) :
    (mergeStep (some m) nm h).input = [floatInput] := by
  have h1 : (addPrefix (nm ++ ['_']) h).input = [redundantInput nm] := by
    simp [addPrefix, hh, redundantInput]
  simp [mergeStep, rewireInput, mergeModels, hm, h1, List.filter_cons,
    redundant_ne_floatInput nm, (redundant_ne_floatInput nm).symm]

theorem mergeStep_initializer {V : Type} (m h : Graph V) (nm : Ident) :
    (mergeStep (some m) nm h).initializer
      = m.initializer
        ++ h.initializer.map (fun q => ((nm ++ ['_']) ++ q.1, q.2)) := rfl

/-- Node-list decomposition of a non-initial merge step: the accumulator's
nodes pass through the rewiring unchanged (they never mention the redundant
name), and each incoming node appears prefixed with its input entries
rewired. -/
theorem mergeStep_node {V : Type} {m : Graph V} {nm : Ident} (h : Graph V)
    (hmreads : ∀ nd ∈ m.node, redundantInput nm ∉ nd.inputs) :
    (mergeStep (some m) nm h).node
      = m.node ++ h.node.map (prefNode (nm ++ ['_'])) := by
  have hstep : (mergeStep (some m) nm h).node
      = (m.node ++ h.node.map (fun nd =>
          { name := (nm ++ ['_']) ++ nd.name
            inputs := nd.inputs.map (fun s => (nm ++ ['_']) ++ s)
            outputs := nd.outputs.map (fun s => (nm ++ ['_']) ++ s)
            op := nd.op : Node V })).map (fun nd =>
          { nd with inputs := nd.inputs.map (fun s =>
              if s = redundantInput nm then floatInput else s) }) := rfl
  rw [hstep, List.map_append, List.map_map]
  congr 1
  · -- accumulator nodes unchanged
    conv_rhs => rw [← List.map_id m.node]
    apply List.map_congr_left
    intro nd hnd
    have hids : nd.inputs.map (fun s =>
        if s = redundantInput nm then floatInput else s) = nd.inputs := by
      conv_rhs => rw [← List.map_id nd.inputs]
      apply List.map_congr_left
      intro s hs
      have hsr : s ≠ redundantInput nm := by
        intro hc
        exact hmreads nd hnd (by rw [← hc]; exact hs)
      rw [if_neg hsr]
      rfl
    show { nd with inputs := nd.inputs.map _ } = id nd
    rw [hids]
    rfl
  · -- incoming nodes: prefix then rewire is prefNode
    apply List.map_congr_left
    intro nd _
    show { name := (nm ++ ['_']) ++ nd.name
           inputs := (nd.inputs.map (fun s => (nm ++ ['_']) ++ s)).map (fun s =>
             if s = redundantInput nm then floatInput else s)
           outputs := nd.outputs.map (fun s => (nm ++ ['_']) ++ s)
           op := nd.op } = prefNode (nm ++ ['_']) nd
    rw [prefNode]
    congr 1
    rw [List.map_map]
    apply List.map_congr_left
    intro s _
    show (if (nm ++ ['_']) ++ s = redundantInput nm then floatInput
          else (nm ++ ['_']) ++ s) = rhoSub (nm ++ ['_']) s
    rw [redundantInput_eq, rhoSub]
    by_cases hsf : s = floatInput
    · subst hsf
      rw [if_pos rfl, if_pos rfl]
    · rw [if_neg (fun hc => hsf (List.append_cancel_left hc)), if_neg hsf]

theorem derivedOuts_append {V : Type} (L : List (Ident × Graph V))
    (hL : L ≠ []) (q : Ident × Graph V) :
    derivedOuts (L ++ [q]) = derivedOuts L ++ [q.1 ++ '_' :: q.1] := by
  cases L with
  | nil => exact absurd rfl hL
  | cons a t =>
    obtain ⟨n₁, h₁⟩ := a
    simp [derivedOuts]

theorem allSrcVals_append {V : Type} :
    ∀ (L : List (Ident × Graph V)) (q : Ident × Graph V) (x : V),
      allSrcVals (L ++ [q]) x
        = match allSrcVals L x, srcVal q.2 x with
          | some vs, some v => some (vs ++ [v])
          | _, _ => none := by
  intro L
  induction L with
  | nil =>
    intro q x
    simp only [List.nil_append, allSrcVals]
    cases srcVal q.2 x <;> rfl
  | cons a t ih =>
    intro q x
    obtain ⟨n, g⟩ := a
    simp only [List.cons_append, List.append_eq, allSrcVals, ih]
    cases srcVal g x <;> cases allSrcVals t x <;> cases srcVal q.2 x <;> rfl

theorem initEnvG_single {V : Type} {g : Graph V} (hin : g.input = [floatInput])
    (x : V) :
    initEnvG g x = envSet (envOfPairs (envNone V) g.initializer) floatInput x := by
  rw [initEnvG, hin]
  rfl

theorem outVals_single_shape {V : Type} {h : Graph V} {nm : Ident}
    (hout : h.output = [nm]) (x : V) :
    outVals h x
      = match runNodes (initEnvG h x) h.node with
        | none => none
        | some e =>
          match e nm with
          | none => none
          | some v => some [v] := by
  rw [outVals, hout]
  cases runNodes (initEnvG h x) h.node with
  | none => rfl
  | some e =>
    simp only [lookAll]
    cases e nm <;> rfl

theorem srcVal_single_shape {V : Type} {h : Graph V} {nm : Ident}
    (hout : h.output = [nm]) (x : V) :
    srcVal h x
      = match runNodes (initEnvG h x) h.node with
        | none => none
        | some e => e nm := by
  rw [srcVal, outVals_single_shape hout]
  cases runNodes (initEnvG h x) h.node with
  | none => rfl
  | some e =>
    show (match (match e nm with
          | none => none
          | some v => some [v] : Option (List V)) with
        | some (v :: _) => some v
        | _ => none) = e nm
    cases e nm <;> rfl

/-- The fold invariant: after merging the pair list `L` (nonempty), with
`S` the symbols accumulated so far, the accumulator graph `m` has the one
canonical input, the derived output names, all its symbols inside `S`, no
node writing the shared input, distinct outputs — and evaluates, on every
batch, to exactly the per-source output values of `L`. -/
structure MergeInv {V : Type} (L : List (Ident × Graph V)) (S : List Ident)
    (m : Graph V) : Prop where
  ne : L ≠ []
  inp : m.input = [floatInput]
  outp : m.output = derivedOuts L
  symsSub : ∀ s ∈ syms m, s ∈ S
  noWF : ∀ nd ∈ m.node, floatInput ∉ nd.outputs
  nodup : m.output.Nodup
  fmem : floatInput ∈ S
  sem : ∀ x, outVals m x = allSrcVals L x

/-- The one-step semantic preservation: merging one more converted model
appends its (single) output value to the accumulated value list, for every
batch. -/
theorem mergeStep_outVals {V : Type} {L : List (Ident × Graph V)}
    {S : List Ident} {m : Graph V} {nm : Ident} {h : Graph V}
    (hI : MergeInv L S m) (hok : pairOK nm h) (hfr : freshFor nm h S) (x : V) :
    outVals (mergeStep (some m) nm h) x
      = match allSrcVals L x, srcVal h x with
        | some vs, some v => some (vs ++ [v])
        | _, _ => none := by
  obtain ⟨hhin, hhout, hnmf, hhwr⟩ := hok
  have hpe : ∀ s, (nm ++ ['_']) ++ s ≠ floatInput := freshFor_pne hfr.1
  have hps : ∀ s ∈ syms h, (nm ++ ['_']) ++ s ∉ S := by
    intro s hs
    rw [append_singleton_cons]
    exact hfr.2 s hs
  have hfsy : floatInput ∈ syms h :=
    input_mem_syms (by rw [hhin]; exact List.mem_singleton.mpr rfl)
  have hredS : redundantInput nm ∉ S := by
    rw [redundantInput_eq]
    exact hps floatInput hfsy
  have hmreads : ∀ nd ∈ m.node, redundantInput nm ∉ nd.inputs := by
    intro nd hnd hmem
    exact hredS (hI.symsSub _ (read_mem_syms (mem_nodeReads hnd hmem)))
  have hnode := mergeStep_node h hmreads
  have hMin : (mergeStep (some m) nm h).input = [floatInput] :=
    mergeStep_single_input nm hI.inp hhin
  have hMout : (mergeStep (some m) nm h).output
      = m.output ++ [(nm ++ ['_']) ++ nm] := by
    rw [mergeStep_some_output, hhout]
    rfl
  have hbase : initEnvG (mergeStep (some m) nm h) x
      = envSet (envOfPairs (envNone V)
          (m.initializer
            ++ h.initializer.map (fun q => ((nm ++ ['_']) ++ q.1, q.2))))
          floatInput x := by
    rw [initEnvG_single hMin, mergeStep_initializer]
  set D : List Ident
    := (h.initializer.map Prod.fst).map (fun s => (nm ++ ['_']) ++ s) with hD
  have hDS : ∀ s ∈ D, s ∉ S := by
    intro s hs
    rw [hD] at hs
    obtain ⟨t, ht, rfl⟩ := List.mem_map.mp hs
    exact hps t (initKey_mem_syms ht)
  have hDmapkeys :
      (h.initializer.map (fun q => ((nm ++ ['_']) ++ q.1, q.2))).map Prod.fst
        = D := by
    rw [hD, List.map_map, List.map_map]
    rfl
  have hEO0 : ExceptOn D (initEnvG m x)
      (initEnvG (mergeStep (some m) nm h) x) := by
    intro s hs
    rw [initEnvG_single hI.inp, hbase]
    by_cases hsf : s = floatInput
    · subst hsf
      rw [envSet_same, envSet_same]
    · rw [envSet_other _ hsf, envSet_other _ hsf]
      rw [envOfPairs_append,
        envOfPairs_notMem
          (h.initializer.map (fun q => ((nm ++ ['_']) ++ q.1, q.2)))
          (envOfPairs (envNone V) m.initializer) s
          (by rw [hDmapkeys]; exact hs)]
  have hreadsD : ∀ nd ∈ m.node, ∀ s ∈ nd.inputs, s ∉ D := by
    intro nd hnd s hs hmem
    exact hDS s hmem (hI.symsSub s (read_mem_syms (mem_nodeReads hnd hs)))
  have hA := exceptOn_runNodes m.node hEO0 hreadsD
  have hfnw : floatInput ∉ nodeWrites m.node := by
    intro hmem
    obtain ⟨nd, hnd, hm⟩ := nodeWrites_mem hmem
    exact hI.noWF nd hnd hm
  have hBwrites : ∀ s ∈ nodeWrites (h.node.map (prefNode (nm ++ ['_']))), s ∉ S := by
    intro s hmem
    obtain ⟨nd', hnd', hm⟩ := nodeWrites_mem hmem
    obtain ⟨nd, hnd, rfl⟩ := List.mem_map.mp hnd'
    obtain ⟨t, ht, rfl⟩ := List.mem_map.mp hm
    exact hps t (write_mem_syms (mem_nodeWrites hnd ht))
  rw [outVals, hnode, hMout]
  cases hrm : runNodes (initEnvG m x) m.node with
  | none =>
    rw [hrm] at hA
    cases hrM : runNodes (initEnvG (mergeStep (some m) nm h) x) m.node with
    | some eM1 =>
      rw [hrM] at hA
      exact absurd hA (by simp [OptRel])
    | none =>
      have hrun : runNodes (initEnvG (mergeStep (some m) nm h) x)
          (m.node ++ h.node.map (prefNode (nm ++ ['_']))) = none := by
        rw [runNodes_append, hrM]
      rw [hrun]
      have hm0 : allSrcVals L x = none := by
        rw [← hI.sem x, outVals, hrm]
      rw [hm0]
  | some em1 =>
    rw [hrm] at hA
    cases hrM : runNodes (initEnvG (mergeStep (some m) nm h) x) m.node with
    | none =>
      rw [hrM] at hA
      exact absurd hA (by simp [OptRel])
    | some eM1 =>
      rw [hrM] at hA
      have hCP : Coupled (nm ++ ['_']) (syms h) eM1 (initEnvG h x) := by
        constructor
        · have h1 : eM1 floatInput
              = initEnvG (mergeStep (some m) nm h) x floatInput :=
            runNodes_frame m.node _ _ hrM floatInput hfnw
          have h2 : initEnvG (mergeStep (some m) nm h) x floatInput = some x := by
            rw [hbase]
            exact envSet_same _ _ _
          have h3 : initEnvG h x floatInput = some x := by
            rw [initEnvG_single hhin]
            exact envSet_same _ _ _
          rw [h1, h2, h3]
        · intro s hs hsf
          have hnw : (nm ++ ['_']) ++ s ∉ nodeWrites m.node := by
            intro hmem
            exact hps s hs (hI.symsSub _ (write_mem_syms hmem))
          rw [runNodes_frame m.node _ _ hrM _ hnw]
          rw [hbase, envSet_other _ (hpe s)]
          rw [envOfPairs_append]
          rw [envOfPairs_prefixed_at (nm ++ ['_']) s h.initializer
            (envOfPairs (envNone V) m.initializer) (envNone V)
            (by
              rw [envOfPairs_notMem m.initializer (envNone V)
                ((nm ++ ['_']) ++ s)
                (fun hmem =>
                  hps s hs (hI.symsSub _ (initKey_mem_syms hmem)))]
              rfl)]
          rw [initEnvG_single hhin, envSet_other _ hsf]
      have hconds : ∀ nd ∈ h.node,
          (∀ s ∈ nd.inputs, s ∈ syms h) ∧ floatInput ∉ nd.outputs :=
        fun nd hnd =>
          ⟨fun s hs => read_mem_syms (mem_nodeReads hnd hs), hhwr nd hnd⟩
      have hB := coupled_runNodes hpe h.node hCP hconds
      cases hrB : runNodes (initEnvG h x) h.node with
      | none =>
        rw [hrB] at hB
        cases hrBM : runNodes eM1 (h.node.map (prefNode (nm ++ ['_']))) with
        | some eMf =>
          rw [hrBM] at hB
          exact absurd hB (by simp [OptRel])
        | none =>
          have hrun : runNodes (initEnvG (mergeStep (some m) nm h) x)
              (m.node ++ h.node.map (prefNode (nm ++ ['_']))) = none := by
            rw [runNodes_append, hrM]
            exact hrBM
          rw [hrun]
          have hsv : srcVal h x = none := by
            rw [srcVal_single_shape hhout, hrB]
          rw [hsv]
          cases allSrcVals L x <;> rfl
      | some eBf =>
        rw [hrB] at hB
        cases hrBM : runNodes eM1 (h.node.map (prefNode (nm ++ ['_']))) with
        | none =>
          rw [hrBM] at hB
          exact absurd hB (by simp [OptRel])
        | some eMf =>
          rw [hrBM] at hB
          have hrun : runNodes (initEnvG (mergeStep (some m) nm h) x)
              (m.node ++ h.node.map (prefNode (nm ++ ['_'])))
              = some eMf := by
            rw [runNodes_append, hrM]
            exact hrBM
          rw [hrun]
          show lookAll eMf (m.output ++ [(nm ++ ['_']) ++ nm]) = _
          have hl1 : lookAll eMf m.output = allSrcVals L x := by
            have hstep1 : ∀ o ∈ m.output, eMf o = eM1 o := by
              intro o ho
              exact runNodes_frame _ _ _ hrBM o
                (fun hmem => hBwrites o hmem
                  (hI.symsSub o (output_mem_syms ho)))
            have hstep2 : ∀ o ∈ m.output, em1 o = eM1 o := by
              intro o ho
              exact hA o (fun hmem =>
                hDS o hmem (hI.symsSub o (output_mem_syms ho)))
            have hc : lookAll eMf m.output = lookAll em1 m.output :=
              lookAll_congr (fun o ho => (hstep1 o ho).trans (hstep2 o ho).symm)
            rw [hc, ← hI.sem x, outVals, hrm]
          have hsv : srcVal h x = eBf nm := by
            rw [srcVal_single_shape hhout, hrB]
          have hMB : eMf ((nm ++ ['_']) ++ nm) = eBf nm :=
            hB.2 nm (output_mem_syms (by rw [hhout]; exact List.mem_singleton.mpr rfl)) hnmf
          rw [lookAll_append, hl1, hsv]
          show (match allSrcVals L x,
              (match eMf ((nm ++ ['_']) ++ nm), some ([] : List V) with
               | some v, some vs => some (v :: vs)
               | _, _ => none : Option (List V)) with
            | some a, some b => some (a ++ b)
            | _, _ => none) = _
          rw [hMB]
          cases allSrcVals L x <;> cases eBf nm <;> rfl

theorem nodeReads_append {V : Type} (as bs : List (Node V)) :
    nodeReads (as ++ bs) = nodeReads as ++ nodeReads bs := by
  induction as with
  | nil => rfl
  | cons nd t ih =>
    simp only [List.cons_append, nodeReads, List.foldr_cons] at *
    rw [ih, List.append_assoc]

theorem nodeWrites_append {V : Type} (as bs : List (Node V)) :
    nodeWrites (as ++ bs) = nodeWrites as ++ nodeWrites bs := by
  induction as with
  | nil => rfl
  | cons nd t ih =>
    simp only [List.cons_append, nodeWrites, List.foldr_cons] at *
    rw [ih, List.append_assoc]

/-- One full invariant step: merging one more fresh, contract-honouring
converted model preserves the invariant, growing the pair list and the
symbol set. -/
theorem mergeInv_step {V : Type} {L : List (Ident × Graph V)} {S : List Ident}
    {m : Graph V} {nm : Ident} {h : Graph V}
    (hI : MergeInv L S m) (hok : pairOK nm h) (hfr : freshFor nm h S) :
    MergeInv (L ++ [(nm, h)]) (S ++ (syms h).map (fun s => nm ++ '_' :: s))
      (mergeStep (some m) nm h) := by
  have hsem := fun x => mergeStep_outVals hI hok hfr x
  obtain ⟨hhin, hhout, hnmf, hhwr⟩ := hok
  have hpe : ∀ s, (nm ++ ['_']) ++ s ≠ floatInput := freshFor_pne hfr.1
  have hps : ∀ s ∈ syms h, (nm ++ ['_']) ++ s ∉ S := by
    intro s hs
    rw [append_singleton_cons]
    exact hfr.2 s hs
  have hprefmem : ∀ s ∈ syms h,
      (nm ++ ['_']) ++ s ∈ (syms h).map (fun t => nm ++ '_' :: t) := by
    intro s hs
    rw [append_singleton_cons]
    exact List.mem_map_of_mem _ hs
  have hfsy : floatInput ∈ syms h :=
    input_mem_syms (by rw [hhin]; exact List.mem_singleton.mpr rfl)
  have hnmsy : nm ∈ syms h :=
    output_mem_syms (by rw [hhout]; exact List.mem_singleton.mpr rfl)
  have hredS : redundantInput nm ∉ S := by
    rw [redundantInput_eq]
    exact hps floatInput hfsy
  have hmreads : ∀ nd ∈ m.node, redundantInput nm ∉ nd.inputs := by
    intro nd hnd hmem
    exact hredS (hI.symsSub _ (read_mem_syms (mem_nodeReads hnd hmem)))
  have hnode := mergeStep_node h hmreads
  have hMin : (mergeStep (some m) nm h).input = [floatInput] :=
    mergeStep_single_input nm hI.inp hhin
  have hMout : (mergeStep (some m) nm h).output
      = m.output ++ [(nm ++ ['_']) ++ nm] := by
    rw [mergeStep_some_output, hhout]
    rfl
  refine ⟨by simp, hMin, ?_, ?_, ?_, ?_, List.mem_append_left _ hI.fmem, ?_⟩
  · -- declared outputs
    rw [hMout, hI.outp, derivedOuts_append L hI.ne (nm, h), append_singleton_cons]
  · -- symbol containment
    intro s hs
    rw [List.mem_append]
    rw [syms] at hs
    simp only [List.mem_append] at hs
    rcases hs with ((((hs | hs) | hs) | hs) | hs)
    · rw [hMin, List.mem_singleton] at hs
      subst hs
      exact Or.inl hI.fmem
    · rw [hMout] at hs
      rcases List.mem_append.mp hs with h' | h'
      · exact Or.inl (hI.symsSub _ (output_mem_syms h'))
      · rw [List.mem_singleton] at h'
        subst h'
        exact Or.inr (hprefmem nm hnmsy)
    · rw [mergeStep_initializer, List.map_append] at hs
      rcases List.mem_append.mp hs with h' | h'
      · exact Or.inl (hI.symsSub _ (initKey_mem_syms h'))
      · rw [List.map_map] at h'
        obtain ⟨q, hq, rfl⟩ := List.mem_map.mp h'
        exact Or.inr (hprefmem q.1 (initKey_mem_syms (List.mem_map_of_mem _ hq)))
    · rw [hnode, nodeReads_append] at hs
      rcases List.mem_append.mp hs with h' | h'
      · exact Or.inl (hI.symsSub _ (read_mem_syms h'))
      · obtain ⟨nd', hnd', hmem⟩ := nodeReads_mem h'
        obtain ⟨nd, hnd, rfl⟩ := List.mem_map.mp hnd'
        obtain ⟨t, ht, rfl⟩ := List.mem_map.mp hmem
        by_cases htf : t = floatInput
        · subst htf
          simp only [rhoSub, if_pos rfl]
          exact Or.inl hI.fmem
        · simp only [rhoSub, if_neg htf]
          exact Or.inr (hprefmem t (read_mem_syms (mem_nodeReads hnd ht)))
    · rw [hnode, nodeWrites_append] at hs
      rcases List.mem_append.mp hs with h' | h'
      · exact Or.inl (hI.symsSub _ (write_mem_syms h'))
      · obtain ⟨nd', hnd', hmem⟩ := nodeWrites_mem h'
        obtain ⟨nd, hnd, rfl⟩ := List.mem_map.mp hnd'
        obtain ⟨t, ht, rfl⟩ := List.mem_map.mp hmem
        exact Or.inr (hprefmem t (write_mem_syms (mem_nodeWrites hnd ht)))
  · -- no node writes the shared input
    intro nd hnd
    rw [hnode] at hnd
    rcases List.mem_append.mp hnd with hmem | hmem
    · exact hI.noWF nd hmem
    · obtain ⟨nd₀, _, rfl⟩ := List.mem_map.mp hmem
      intro hmemf
      obtain ⟨t, _, hteq⟩ := List.mem_map.mp hmemf
      exact hpe t hteq
  · -- distinct outputs
    rw [hMout]
    refine List.Nodup.append hI.nodup (List.nodup_singleton _) ?_
    intro a ha hb
    rw [List.mem_singleton] at hb
    subst hb
    exact hps nm hnmsy (hI.symsSub _ (output_mem_syms ha))
  · -- semantic preservation
    intro x
    rw [hsem x, allSrcVals_append]

/-- The invariant at the first (unprefixed) merged model. -/
theorem mergeInv_base {V : Type} {nm : Ident} {h : Graph V}
    (hok : pairOK nm h) :
    MergeInv [(nm, h)] (floatInput :: syms h) h := by
  obtain ⟨hhin, hhout, hnmf, hhwr⟩ := hok
  refine ⟨by simp, hhin, by rw [hhout]; rfl,
    fun s hs => List.mem_cons_of_mem _ hs, hhwr,
    by rw [hhout]; exact List.nodup_singleton nm,
    List.mem_cons_self _ _, ?_⟩
  intro x
  have hone : allSrcVals [(nm, h)] x
      = match srcVal h x with
        | some v => some [v]
        | none => none := by
    show (match srcVal h x, (some [] : Option (List V)) with
      | some v, some vs => some (v :: vs)
      | _, _ => none) = _
    cases srcVal h x <;> rfl
  rw [outVals_single_shape hhout x, hone, srcVal_single_shape hhout x]
  cases runNodes (initEnvG h x) h.node with
  | none => rfl
  | some e =>
    show (match e nm with
        | none => none
        | some v => some [v])
      = (match e nm with
        | some v => some [v]
        | none => none : Option (List V))
    cases e nm <;> rfl

/-- Folding the invariant over the rest of a fresh group. -/
theorem mergeInv_fold {V : Type} :
    ∀ (rest : List (Ident × Graph V)) (L : List (Ident × Graph V))
      (S : List Ident) (m : Graph V),
      MergeInv L S m → groupFresh S rest →
      ∃ S', MergeInv (L ++ rest) S' (foldMerge m rest) := by
  intro rest
  induction rest with
  | nil =>
    intro L S m hI _
    exact ⟨S, by simpa using hI⟩
  | cons q t ih =>
    intro L S m hI hfr
    obtain ⟨nm, h⟩ := q
    obtain ⟨hok, hfresh, hrest⟩ := hfr
    obtain ⟨S', hS'⟩ := ih (L ++ [(nm, h)]) _ _ (mergeInv_step hI hok hfresh) hrest
    refine ⟨S', ?_⟩
    rw [List.append_assoc, List.singleton_append] at hS'
    exact hS'

theorem renamedPairs_cons_none {V : Type} {convert : Ident → Option (Graph V)}
    {a : Ident} (hc : convert a = none) (t : List Ident) :
    renamedPairs convert (a :: t) = renamedPairs convert t := by
  rw [renamedPairs, renamedPairs, List.filterMap_cons, hc]
  rfl

theorem renamedPairs_cons_some {V : Type} {convert : Ident → Option (Graph V)}
    {a : Ident} {g : Graph V} (hc : convert a = some g) (t : List Ident) :
    renamedPairs convert (a :: t)
      = (a, renameOutput g a) :: renamedPairs convert t := by
  rw [renamedPairs, renamedPairs, List.filterMap_cons, hc]
  rfl

/-- The graph half of the export fold is the merge fold over the
successfully converted, renamed pairs. -/
theorem exportFold_graph {V : Type} (convert : Ident → Option (Graph V)) :
    ∀ (names : List Ident) (st : Option (Graph V) × List Ident),
      (names.foldl (exportStep convert) st).1
        = (renamedPairs convert names).foldl
            (fun a q => some (mergeStep a q.1 q.2)) st.1 := by
  intro names
  induction names with
  | nil => intro st; rfl
  | cons a t ih =>
    intro st
    rw [List.foldl_cons]
    cases hc : convert a with
    | none =>
      rw [exportStep_none st hc, ih, renamedPairs_cons_none hc]
    | some g =>
      rw [exportStep_some st hc, ih, renamedPairs_cons_some hc, List.foldl_cons]

theorem foldl_mergeStep_some {V : Type} :
    ∀ (ps : List (Ident × Graph V)) (m : Graph V),
      ps.foldl (fun a q => some (mergeStep a q.1 q.2)) (some m)
        = some (foldMerge m ps) := by
  intro ps
  induction ps with
  | nil => intro m; rfl
  | cons q t ih =>
    intro m
    rw [List.foldl_cons]
    exact ih _

theorem foldl_mergeStep_none {V : Type} (q : Ident × Graph V)
    (t : List (Ident × Graph V)) :
    (q :: t).foldl (fun a p => some (mergeStep a p.1 p.2)) none
      = some (foldMerge q.2 t) := by
  rw [List.foldl_cons]
  exact foldl_mergeStep_some t q.2

/-- The export fold of a group whose converted pairs honour the group
contract produces a graph satisfying the merge invariant over all pairs. -/
theorem exportRun_mergeInv {V : Type}
    (convert : Ident → Option (Graph V)) (names : List Ident)
    (hok : groupOK (renamedPairs convert names))
    (hne : renamedPairs convert names ≠ []) :
    ∃ S m, (exportRun convert names).1 = some m
      ∧ MergeInv (renamedPairs convert names) S m := by
  cases hL : renamedPairs convert names with
  | nil => exact absurd hL hne
  | cons q rest =>
    obtain ⟨nm, h⟩ := q
    rw [hL] at hok
    obtain ⟨hpok, hfr⟩ := hok
    obtain ⟨S', hS'⟩ := mergeInv_fold rest [(nm, h)] _ h (mergeInv_base hpok) hfr
    rw [List.singleton_append] at hS'
    refine ⟨S', foldMerge h rest, ?_, hS'⟩
    rw [exportRun, exportFold_graph convert names (none, [])]
    show (renamedPairs convert names).foldl _ none = _
    rw [hL]
    exact foldl_mergeStep_none (nm, h) rest

theorem derivedOuts_length {V : Type} :
    ∀ L : List (Ident × Graph V), (derivedOuts L).length = L.length := by
  intro L
  cases L with
  | nil => rfl
  | cons q t =>
    obtain ⟨nm, h⟩ := q
    simp [derivedOuts]

theorem renamedPairs_length {V : Type} (convert : Ident → Option (Graph V)) :
    ∀ names : List Ident, (∀ n ∈ names, (convert n).isSome) →
      (renamedPairs convert names).length = names.length := by
  intro names
  induction names with
  | nil => intro _; rfl
  | cons a t ih =>
    intro hall
    cases hc : convert a with
    | none =>
      have := hall a (List.mem_cons_self a t)
      rw [hc] at this
      exact absurd this (by simp)
    | some g =>
      rw [renamedPairs_cons_some hc, List.length_cons,
        ih (fun n hn => hall n (List.mem_cons_of_mem a hn)), List.length_cons]

instance {V : Type} (nm : Ident) (h : Graph V) : Decidable (pairOK nm h) := by
  unfold pairOK
  infer_instance

instance {V : Type} (nm : Ident) (h : Graph V) (S : List Ident) :
    Decidable (freshFor nm h S) := by
  unfold freshFor
  infer_instance

def groupFreshDec {V : Type} :
    ∀ (S : List Ident) (L : List (Ident × Graph V)), Decidable (groupFresh S L)
  | _, [] => .isTrue trivial
  | S, (nm, h) :: rest =>
    have : Decidable
        (groupFresh (S ++ (syms h).map (fun s => nm ++ '_' :: s)) rest) :=
      groupFreshDec _ rest
    by
      unfold groupFresh
      infer_instance

instance {V : Type} (S : List Ident) (L : List (Ident × Graph V)) :
    Decidable (groupFresh S L) := groupFreshDec S L

instance groupOKDec {V : Type} : ∀ L : List (Ident × Graph V), Decidable (groupOK L)
  | [] => .isTrue trivial
  | (nm, h) :: rest => by
      unfold groupOK
      infer_instance

/-- C1: for every group of converted models merged by the fold (the
successfully converted, renamed pairs, under the converter contract and the
prefix-freshness guarantee the prefixing is for), evaluating the final
merged graph once on any batch yields, for each declared output name in
order, numerically the same value as evaluating that output's source
converted graph alone on the same batch: `evalGraph` of the merged graph is
the declared names zipped with exactly the per-source single-output values
`allSrcVals`. -/
theorem merged_graph_equivalence {V : Type}
    (convert : Ident → Option (Graph V)) (names : List Ident)
    (hok : groupOK (renamedPairs convert names))
    (hne : renamedPairs convert names ≠ []) :
    ∃ m, (exportRun convert names).1 = some m
      ∧ m.output = derivedOuts (renamedPairs convert names)
      ∧ ∀ x, evalGraph m x
          = (allSrcVals (renamedPairs convert names) x).map
              (fun vs => (derivedOuts (renamedPairs convert names)).zip vs) := by
  obtain ⟨S, m, hrun, hI⟩ := exportRun_mergeInv convert names hok hne
  refine ⟨m, hrun, hI.outp, ?_⟩
  intro x
  rw [evalGraph, hI.sem x, hI.outp]

/-- Concrete check of C1 on a two-model Price group over integer tensors. -/
theorem merged_graph_equivalence_check :
    ∃ m, (exportRun (fun _ => some sampleConverted) priceGroupTwo).1 = some m
      ∧ m.output
          = derivedOuts (renamedPairs (fun _ => some sampleConverted) priceGroupTwo)
      ∧ ∀ x, evalGraph m x
          = (allSrcVals (renamedPairs (fun _ => some sampleConverted) priceGroupTwo) x).map
              (fun vs =>
                (derivedOuts
                  (renamedPairs (fun _ => some sampleConverted) priceGroupTwo)).zip vs) :=
  merged_graph_equivalence (fun _ => some sampleConverted) priceGroupTwo
    (by decide) (List.length_pos.mp (by decide))

/-- C4: when every model of a (nonempty) group converts successfully and
the group honours the converter and freshness contracts, the merged graph
has exactly `k` declared outputs (`k` the number of models), pairwise
distinct in name, and exactly one declared input, `float_input`, for
every `k`. -/
theorem merged_graph_output_input_cardinality {V : Type}
    (convert : Ident → Option (Graph V)) (names : List Ident)
    (hok : groupOK (renamedPairs convert names))
    (hall : ∀ n ∈ names, (convert n).isSome)
    (hne : names ≠ []) :
    ∃ m, (exportRun convert names).1 = some m
      ∧ m.output.length = names.length
      ∧ m.output.Nodup
      ∧ m.input = [floatInput] := by
  have hlen := renamedPairs_length convert names hall
  have hne' : renamedPairs convert names ≠ [] := by
    intro hcc
    rw [hcc] at hlen
    exact hne (List.length_eq_zero.mp hlen.symm)
  obtain ⟨S, m, hrun, hI⟩ := exportRun_mergeInv convert names hok hne'
  exact ⟨m, hrun, by rw [hI.outp, derivedOuts_length, hlen], hI.nodup, hI.inp⟩

/-- Concrete check of C4 on the two-model Price group. -/
theorem merged_graph_cardinality_check :
    ∃ m, (exportRun (fun _ => some sampleConverted) priceGroupTwo).1 = some m
      ∧ m.output.length = priceGroupTwo.length
      ∧ m.output.Nodup
      ∧ m.input = [floatInput] :=
  merged_graph_output_input_cardinality (fun _ => some sampleConverted)
    priceGroupTwo (by decide) (by decide) (by decide)

/-- Declared-output count of an optional accumulator. -/
def outCount {V : Type} : Option (Graph V) → Nat
  | none => 0
  | some g => g.output.length

theorem mergeStep_count {V : Type} {g : Graph V} {o : Ident}
    (acc : Option (Graph V)) (nm : Ident) (ho : g.output = [o]) :
    (mergeStep acc nm (renameOutput g nm)).output.length = outCount acc + 1 := by
  cases acc with
  | none =>
    show (renameOutput g nm).output.length = 0 + 1
    rw [renameOutput_single nm ho]
    rfl
  | some a =>
    rw [mergeStep_some_output, renameOutput_single nm ho]
    simp [outCount]

/-- Every successful conversion adds exactly one declared output to the
accumulator (under the single-output converter contract). -/
theorem exportFold_count {V : Type} (convert : Ident → Option (Graph V)) :
    ∀ (names : List Ident) (st : Option (Graph V) × List Ident),
      (∀ n ∈ names, ∀ g, convert n = some g → ∃ o, g.output = [o]) →
      outCount (names.foldl (exportStep convert) st).1
        = outCount st.1 + names.countP (fun n => (convert n).isSome) := by
  intro names
  induction names with
  | nil => intro st _; simp
  | cons a t ih =>
    intro st hc
    rw [List.foldl_cons, List.countP_cons]
    cases hca : convert a with
    | none =>
      rw [exportStep_none st hca,
        ih _ (fun n hn => hc n (List.mem_cons_of_mem a hn))]
      simp [hca]
    | some g =>
      obtain ⟨o, ho⟩ := hc a (List.mem_cons_self a t) g hca
      rw [exportStep_some st hca,
        ih _ (fun n hn => hc n (List.mem_cons_of_mem a hn))]
      show (mergeStep st.1 a (renameOutput g a)).output.length + _ = _
      rw [mergeStep_count st.1 a ho]
      simp [hca]
      omega

/-- A filter returning exactly the one matching element of a duplicate-free
list. -/
theorem filter_eq_singleton {p : Ident → Bool} :
    ∀ (l : List Ident) (f : Ident), l.Nodup → f ∈ l → p f = true →
      (∀ n ∈ l, n ≠ f → p n = false) → l.filter p = [f] := by
  intro l
  induction l with
  | nil => intro f _ hf _ _; exact absurd hf (List.not_mem_nil f)
  | cons a t ih =>
    intro f hnd hf hpf hothers
    rw [List.filter_cons]
    rcases List.mem_cons.mp hf with h | h
    · subst h
      rw [if_pos hpf]
      have hnone : t.filter p = [] := by
        rw [List.filter_eq_nil_iff]
        intro n hn
        have hna : n ≠ f := fun hcc => (List.nodup_cons.mp hnd).1 (hcc ▸ hn)
        rw [hothers n (List.mem_cons_of_mem _ hn) hna]
        exact Bool.noConfusion
      rw [hnone]
    · have haf : a ≠ f := fun hcc => (List.nodup_cons.mp hnd).1 (hcc ▸ h)
      have hpa : p a = false := hothers a (List.mem_cons_self a t) haf
      rw [if_neg (by rw [hpa]; exact Bool.noConfusion)]
      exact ih f (List.nodup_cons.mp hnd).2 h hpf
        (fun n hn hnf => hothers n (List.mem_cons_of_mem a hn) hnf)

/-- C5: in a group of `k ≥ 2` distinct models in which exactly one fails
conversion (the converter's exception, caught by the loop) and the rest
convert to single-output graphs, the failing model is skipped, exactly its
name is reported as the one failure, and the remaining `k-1` models still
merge into the written group artifact with exactly `k-1` declared outputs;
the run is a total function, so nothing aborts it. -/
theorem failure_containment {V : Type} (convert : Ident → Option (Graph V))
    (names : List Ident) (f : Ident)
    (hmem : f ∈ names) (hf : convert f = none) (hnd : names.Nodup)
    (hothers : ∀ n ∈ names, n ≠ f →
      ∃ g, convert n = some g ∧ ∃ o, g.output = [o])
    (hk : 2 ≤ names.length) :
    (exportRun convert names).2 = [f]
    ∧ ∃ m, savedArtifact (exportRun convert names).1 = some m
        ∧ m.output.length = names.length - 1 := by
  have hcontract : ∀ n ∈ names, ∀ g, convert n = some g → ∃ o, g.output = [o] := by
    intro n hn g hg
    by_cases hnf : n = f
    · subst hnf
      rw [hf] at hg
      exact Option.noConfusion hg
    · obtain ⟨g', hg', o, ho⟩ := hothers n hn hnf
      rw [hg'] at hg
      rw [← Option.some.inj hg]
      exact ⟨o, ho⟩
  have hfail : (exportRun convert names).2 = [f] := by
    rw [exportRun_failures]
    apply filter_eq_singleton names f hnd hmem
    · rw [hf]
      rfl
    · intro n hn hnf
      obtain ⟨g', hg', _⟩ := hothers n hn hnf
      rw [hg']
      rfl
  have hcnt : outCount (exportRun convert names).1
      = names.countP (fun n => (convert n).isSome) := by
    rw [exportRun, exportFold_count convert names (none, []) hcontract]
    simp [outCount]
  have hsum : names.countP (fun n => (convert n).isSome)
      + names.countP (fun n => (convert n).isNone) = names.length := by
    clear hcnt hfail hmem hf hothers hcontract hk hnd
    induction names with
    | nil => rfl
    | cons a t ih =>
      rw [List.countP_cons, List.countP_cons, List.length_cons]
      cases hca : convert a <;> simp [hca] <;> omega
  have hone : names.countP (fun n => (convert n).isNone) = 1 := by
    have hfe : names.filter (fun n => (convert n).isNone) = [f] := by
      rw [← exportRun_failures convert names]
      exact hfail
    rw [List.countP_eq_length_filter, hfe]
    rfl
  have hcount : outCount (exportRun convert names).1 = names.length - 1 := by
    omega
  refine ⟨hfail, ?_⟩
  cases hm : (exportRun convert names).1 with
  | none =>
    rw [hm] at hcount
    exfalso
    simp [outCount] at hcount
    omega
  | some m =>
    rw [hm] at hcount
    exact ⟨m, rfl, hcount⟩

/-- A conversion that fails exactly on `Price_Lower_q5`. -/
def convFail : Ident → Option (Graph Int) :=
  fun n => if n = "Price_Lower_q5".data then none else some sampleConverted

/-- The full three-model Price group. -/
def priceGroupThree : List Ident :=
  ["Price_Point".data, "Price_Lower_q5".data, "Price_Upper_q95".data]

/-- Concrete check of C5: with `Price_Lower_q5` failing conversion, exactly
it is reported and the written artifact carries the other two outputs. -/
theorem failure_containment_check :
    (exportRun convFail priceGroupThree).2 = ["Price_Lower_q5".data]
    ∧ ∃ m, savedArtifact (exportRun convFail priceGroupThree).1 = some m
        ∧ m.output.length = priceGroupThree.length - 1 :=
  failure_containment convFail priceGroupThree ("Price_Lower_q5".data)
    (by decide) (if_pos rfl) (by decide)
    (fun n hn hnf => ⟨sampleConverted, if_neg hnf, "variable".data, rfl⟩)
    (by decide)
